import Mathlib

/-!
Verification of the unified-diff interpretation engine of the `tdiff`
repository (packages `diff`: `worddiff.go` and the unified-diff parser).

Shallow embedding conventions:
* Go strings are Lean `String` (a wrapper around `List Char`); the Go code
  converts to `[]rune` before classifying, which is `String.data`.
* Go `*int` fields (row line numbers) become `Option Int`.
* Go slices become Lean lists; loop-built slices become recursions or folds.
* The similarity function `SimilarityTokens` is referenced by the source of
  `greedyMatchPairs` but its definition is not part of the sources under
  verification, so every definition that needs it takes it as an explicit
  parameter `sim` producing values in an arbitrary linear order `S` (which
  also abstracts the Go `float64` scores, used only for comparisons).
  Theorems about the aligner therefore hold for every possible outcome of
  the similarity scoring.
* `sort.Slice` is modelled by insertion sort; each comparator used by the
  source is a strict total order on the values being sorted (all ties are
  broken by distinct index fields), so the sorted permutation is unique and
  the model agrees with any correct sorting routine.
-/

namespace TDiff

/-- Token-op kinds of `worddiff.go` (`Equal`, `Delete`, `Insert`). -/
inductive OpKind where
  | Equal : OpKind
  | Delete : OpKind
  | Insert : OpKind
deriving DecidableEq, Repr

/-- One step of the token-level edit script (`type Op struct` in `worddiff.go`). -/
structure Op where
  Kind : OpKind
  Tok : String
deriving DecidableEq, Repr

/-- The Latin-1 fast path plus the Unicode `White_Space` code points, i.e. the
set accepted by Go `unicode.IsSpace`. -/
def unicodeIsSpace (c : Char) : Bool :=
  c = ' ' || c = '\t' || c = '\n' || c = '\x0b' || c = '\x0c' || c = '\r' ||
  c.toNat = 0x85 || c.toNat = 0xA0 || c.toNat = 0x1680 ||
  (0x2000 ≤ c.toNat && c.toNat ≤ 0x200A) ||
  c.toNat = 0x2028 || c.toNat = 0x2029 ||
  c.toNat = 0x202F || c.toNat = 0x205F || c.toNat = 0x3000

/-- `tokenClass` of `worddiff.go`: 0 = whitespace, 1 = word (letter, digit or
underscore), 2 = other.  Go's full Unicode letter/digit tables
(`unicode.IsLetter`, `unicode.IsDigit`) are modelled by Lean's character
predicates; every theorem below about token structure is independent of the
exact classifier. -/
def tokenClass (r : Char) : Nat :=
  if unicodeIsSpace r then 0
  else if r.isAlpha || r.isDigit || r = '_' then 1
  else 2

/-- Loop body of `Tokenize`: `cur` is the class of the run being accumulated,
`acc` holds the run's characters in reverse, and the third argument is the
not-yet-scanned remainder of the rune slice. -/
def tokenizeRuns (cur : Nat) (acc : List Char) : List Char → List (List Char)
  | [] => [acc.reverse]
  | c :: cs =>
    if tokenClass c = cur then tokenizeRuns cur (c :: acc) cs
    else acc.reverse :: tokenizeRuns (tokenClass c) [c] cs

/-- `Tokenize` of `worddiff.go`: split a string into maximal runs of
same-class code points; the empty string yields the empty list. -/
def Tokenize (s : String) : List String :=
  match s.data with
  | [] => []
  | c :: cs => (tokenizeRuns (tokenClass c) [c] cs).map String.mk

/-- Length of the longest common subsequence of two token lists.  The Go code
fills the dynamic-programming grid `dp` of `DiffTokens` bottom-up;
`dp[i][j]` equals `lcsLen (a.drop i) (b.drop j)`, which is the recursion
used here. -/
def lcsLen : List String → List String → Nat
  | [], _ => 0
  | _ :: _, [] => 0
  | a :: as, b :: bs =>
    if a = b then lcsLen as bs + 1
    else max (lcsLen as (b :: bs)) (lcsLen (a :: as) bs)

/-- Backtracking loop of `DiffTokens`: walk both lists from the front,
emitting `Equal` on matching heads and otherwise preferring `Delete` when
`dp[i+1][j] >= dp[i][j+1]`; the exhausted-side tails are flushed as pure
`Delete`s respectively `Insert`s. -/
def diffTokensAux : List String → List String → List Op
  | a :: as, b :: bs =>
    if a = b then ⟨OpKind.Equal, a⟩ :: diffTokensAux as bs
    else if lcsLen (a :: as) bs ≤ lcsLen as (b :: bs) then
      ⟨OpKind.Delete, a⟩ :: diffTokensAux as (b :: bs)
    else
      ⟨OpKind.Insert, b⟩ :: diffTokensAux (a :: as) bs
  | as, [] => as.map (fun t => ⟨OpKind.Delete, t⟩)
  | [], bs => bs.map (fun t => ⟨OpKind.Insert, t⟩)

/-- `DiffTokens` of `worddiff.go` (the `n == 0 && m == 0` early return is the
empty-list case of the backtrack). -/
def DiffTokens (a b : List String) : List Op :=
  if a.length = 0 && b.length = 0 then [] else diffTokensAux a b

/-- The tokens of all `Equal` and `Delete` ops, in order. -/
def restoreOld (ops : List Op) : List String :=
  ops.filterMap (fun o => match o.Kind with | OpKind.Insert => none | _ => some o.Tok)

/-- The tokens of all `Equal` and `Insert` ops, in order. -/
def restoreNew (ops : List Op) : List String :=
  ops.filterMap (fun o => match o.Kind with | OpKind.Delete => none | _ => some o.Tok)

@[simp]
theorem restoreOld_nil : restoreOld [] = [] := rfl

@[simp]
theorem restoreOld_cons_equal (a : String) (ops : List Op) :
    restoreOld (⟨OpKind.Equal, a⟩ :: ops) = a :: restoreOld ops := rfl

@[simp]
theorem restoreOld_cons_del (a : String) (ops : List Op) :
    restoreOld (⟨OpKind.Delete, a⟩ :: ops) = a :: restoreOld ops := rfl

@[simp]
theorem restoreOld_cons_ins (a : String) (ops : List Op) :
    restoreOld (⟨OpKind.Insert, a⟩ :: ops) = restoreOld ops := rfl

@[simp]
theorem restoreNew_nil : restoreNew [] = [] := rfl

@[simp]
theorem restoreNew_cons_equal (a : String) (ops : List Op) :
    restoreNew (⟨OpKind.Equal, a⟩ :: ops) = a :: restoreNew ops := rfl

@[simp]
theorem restoreNew_cons_del (a : String) (ops : List Op) :
    restoreNew (⟨OpKind.Delete, a⟩ :: ops) = restoreNew ops := rfl

@[simp]
theorem restoreNew_cons_ins (a : String) (ops : List Op) :
    restoreNew (⟨OpKind.Insert, a⟩ :: ops) = a :: restoreNew ops := rfl

@[simp]
theorem restoreOld_map_del (as : List String) :
    restoreOld (as.map (fun t => ⟨OpKind.Delete, t⟩)) = as := by
  induction as with
  | nil => rfl
  | cons x xs ih => simp [ih]

@[simp]
theorem restoreOld_map_ins (bs : List String) :
    restoreOld (bs.map (fun t => ⟨OpKind.Insert, t⟩)) = [] := by
  induction bs with
  | nil => rfl
  | cons x xs ih => simp [ih]

@[simp]
theorem restoreNew_map_del (as : List String) :
    restoreNew (as.map (fun t => ⟨OpKind.Delete, t⟩)) = [] := by
  induction as with
  | nil => rfl
  | cons x xs ih => simp [ih]

@[simp]
theorem restoreNew_map_ins (bs : List String) :
    restoreNew (bs.map (fun t => ⟨OpKind.Insert, t⟩)) = bs := by
  induction bs with
  | nil => rfl
  | cons x xs ih => simp [ih]

theorem restoreOld_diffTokensAux : ∀ (a b : List String), restoreOld (diffTokensAux a b) = a := by
  intro a
  induction a with
  | nil =>
    intro b
    cases b with
    | nil => simp [diffTokensAux]
    | cons y bs => simp [diffTokensAux]
  | cons x as ih =>
    intro b
    induction b with
    | nil => simp [diffTokensAux]
    | cons y bs ihb =>
      by_cases hxy : x = y
      · simp [diffTokensAux, hxy, ih bs]
      · by_cases hcmp : lcsLen (x :: as) bs ≤ lcsLen as (y :: bs)
        · simp [diffTokensAux, hxy, hcmp, ih (y :: bs)]
        · simp [diffTokensAux, hxy, hcmp, ihb]

theorem restoreNew_diffTokensAux : ∀ (a b : List String), restoreNew (diffTokensAux a b) = b := by
  intro a
  induction a with
  | nil =>
    intro b
    cases b with
    | nil => simp [diffTokensAux]
    | cons y bs => simp [diffTokensAux]
  | cons x as ih =>
    intro b
    induction b with
    | nil => simp [diffTokensAux]
    | cons y bs ihb =>
      by_cases hxy : x = y
      · simp [diffTokensAux, hxy, ih bs]
      · by_cases hcmp : lcsLen (x :: as) bs ≤ lcsLen as (y :: bs)
        · simp [diffTokensAux, hxy, hcmp, ih (y :: bs)]
        · simp [diffTokensAux, hxy, hcmp, ihb]

theorem length_diffTokensAux :
    ∀ (a b : List String), (diffTokensAux a b).length ≤ a.length + b.length := by
  intro a
  induction a with
  | nil =>
    intro b
    cases b with
    | nil => simp [diffTokensAux]
    | cons y bs => simp [diffTokensAux]
  | cons x as ih =>
    intro b
    induction b with
    | nil => simp [diffTokensAux]
    | cons y bs ihb =>
      by_cases hxy : x = y
      · have h1 := ih bs
        simp [diffTokensAux, hxy]
        omega
      · by_cases hcmp : lcsLen (x :: as) bs ≤ lcsLen as (y :: bs)
        · have h1 := ih (y :: bs)
          simp at h1
          simp [diffTokensAux, hxy, hcmp]
          omega
        · have h1 := ihb
          simp at h1
          simp [diffTokensAux, hxy, hcmp]
          omega

/-- C4: `DiffTokens(a, b)` returns at most `len(a)+len(b)` ops; the `Equal`
and `Delete` tokens in output order reproduce `a` exactly, and the `Equal`
and `Insert` tokens in output order reproduce `b` exactly. -/
theorem diffTokens_conservation (a b : List String) :
    (DiffTokens a b).length ≤ a.length + b.length ∧
    restoreOld (DiffTokens a b) = a ∧ restoreNew (DiffTokens a b) = b := by
  unfold DiffTokens
  by_cases h : a.length = 0 ∧ b.length = 0
  · rcases h with ⟨ha, hb⟩
    rw [List.length_eq_zero] at ha hb
    subst ha; subst hb
    simp [restoreOld, restoreNew]
  · have hcond : ¬(a.length = 0 && b.length = 0) = true := by
      simp only [Bool.and_eq_true, decide_eq_true_eq]
      exact fun hc => h ⟨by simpa using hc.1, by simpa using hc.2⟩
    rw [if_neg hcond]
    exact ⟨length_diffTokensAux a b, restoreOld_diffTokensAux a b, restoreNew_diffTokensAux a b⟩

/-- The class of a run: the class of its first character. -/
def runClass (t : List Char) : Nat := tokenClass (t.headD ' ')

/-- Concatenation of a token list back into a single string. -/
def strConcat (ts : List String) : String := String.mk ((ts.map String.data).flatten)

theorem tokenizeRuns_flatten :
    ∀ (rest : List Char) (cur : Nat) (acc : List Char),
      (tokenizeRuns cur acc rest).flatten = acc.reverse ++ rest := by
  intro rest
  induction rest with
  | nil => intro cur acc; simp [tokenizeRuns]
  | cons c cs ih =>
    intro cur acc
    by_cases h : tokenClass c = cur
    · simp [tokenizeRuns, h, ih]
    · simp [tokenizeRuns, h, ih]

theorem headD_reverse_mem (acc : List Char) (h : acc ≠ []) : acc.reverse.headD ' ' ∈ acc := by
  have hrev : acc.reverse ≠ [] := by simpa using h
  cases hr : acc.reverse with
  | nil => exact absurd hr hrev
  | cons c cs =>
    have hc : c ∈ acc := List.mem_reverse.mp (by rw [hr]; exact List.mem_cons_self c cs)
    simpa using hc

theorem tokenizeRuns_structure :
    ∀ (rest : List Char) (cur : Nat) (acc : List Char),
      acc ≠ [] → (∀ c ∈ acc, tokenClass c = cur) →
      (∀ t ∈ tokenizeRuns cur acc rest, t ≠ [] ∧ ∀ c ∈ t, tokenClass c = runClass t) ∧
      List.Chain' (fun t u => runClass t ≠ runClass u) (tokenizeRuns cur acc rest) ∧
      ∃ t0 ts, tokenizeRuns cur acc rest = t0 :: ts ∧ runClass t0 = cur := by
  intro rest
  induction rest with
  | nil =>
    intro cur acc hne hcls
    have hhead : runClass acc.reverse = cur := hcls _ (headD_reverse_mem acc hne)
    refine ⟨?_, ?_, acc.reverse, [], by simp [tokenizeRuns], hhead⟩
    · intro t ht
      simp [tokenizeRuns] at ht
      subst ht
      refine ⟨by simpa using hne, ?_⟩
      intro c hc
      rw [hhead]
      exact hcls c (List.mem_reverse.mp hc)
    · simp [tokenizeRuns]
  | cons c cs ih =>
    intro cur acc hne hcls
    by_cases h : tokenClass c = cur
    · have hcls' : ∀ x ∈ c :: acc, tokenClass x = cur := by
        intro x hx
        rcases List.mem_cons.mp hx with hx | hx
        · subst hx; exact h
        · exact hcls x hx
      have hrec := ih cur (c :: acc) (by simp) hcls'
      have heqTop : tokenizeRuns cur acc (c :: cs) = tokenizeRuns cur (c :: acc) cs := by
        simp [tokenizeRuns, h]
      rw [heqTop]
      exact hrec
    · have hfirst : runClass acc.reverse = cur := hcls _ (headD_reverse_mem acc hne)
      have hrec := ih (tokenClass c) [c] (by simp) (by intro x hx; simp at hx; subst hx; rfl)
      rcases hrec with ⟨hall, hchain, t0, ts, heq, ht0⟩
      have heqTop : tokenizeRuns cur acc (c :: cs) =
          acc.reverse :: tokenizeRuns (tokenClass c) [c] cs := by
        simp [tokenizeRuns, h]
      rw [heqTop]
      refine ⟨?_, ?_, acc.reverse, tokenizeRuns (tokenClass c) [c] cs, rfl, hfirst⟩
      · intro t ht
        rcases List.mem_cons.mp ht with ht | ht
        · subst ht
          refine ⟨by simpa using hne, ?_⟩
          intro x hx
          rw [hfirst]
          exact hcls x (List.mem_reverse.mp hx)
        · exact hall t ht
      · rw [heq]
        refine List.chain'_cons.mpr ⟨?_, heq ▸ hchain⟩
        rw [hfirst, ht0]
        exact fun hcc => h hcc.symm

/-- C9: `Tokenize` splits its input into maximal runs of same-class code
points, in order: concatenating the returned tokens reproduces the input
exactly, every token is a non-empty run of a single class, adjacent tokens
have different classes (so the runs are maximal), and the empty string
yields the empty sequence. -/
theorem tokenize_maximal_runs (s : String) :
    Tokenize "" = [] ∧
    strConcat (Tokenize s) = s ∧
    (∀ t ∈ Tokenize s, t.data ≠ [] ∧ ∀ c ∈ t.data, tokenClass c = runClass t.data) ∧
    List.Chain' (fun t u => runClass t.data ≠ runClass u.data) (Tokenize s) := by
  refine ⟨rfl, ?_, ?_, ?_⟩
  · cases s with
    | mk d =>
      cases d with
      | nil => rfl
      | cons c cs =>
        show strConcat ((tokenizeRuns (tokenClass c) [c] cs).map String.mk) = _
        unfold strConcat
        rw [List.map_map]
        have hdm : (String.data ∘ String.mk) = id := rfl
        rw [hdm, List.map_id, tokenizeRuns_flatten]
        rfl
  · intro t ht
    cases hs : s.data with
    | nil => simp [Tokenize, hs] at ht
    | cons c cs =>
      simp only [Tokenize, hs, List.mem_map] at ht
      rcases ht with ⟨r, hr, hrt⟩
      have hstr := (tokenizeRuns_structure cs (tokenClass c) [c] (by simp)
        (by intro x hx; simp at hx; subst hx; rfl)).1 r hr
      subst hrt
      exact hstr
  · cases hs : s.data with
    | nil =>
      have hTz : Tokenize s = [] := by simp [Tokenize, hs]
      rw [hTz]
      exact List.chain'_nil
    | cons c cs =>
      have hTz : Tokenize s = (tokenizeRuns (tokenClass c) [c] cs).map String.mk := by
        simp [Tokenize, hs]
      rw [hTz]
      have hchain := (tokenizeRuns_structure cs (tokenClass c) [c] (by simp)
        (by intro x hx; simp at hx; subst hx; rfl)).2.1
      exact List.chain'_map_of_chain' String.mk (fun {a b} hab => by simpa using hab) hchain

/-- Evaluation of the C9 theorem at a concrete input: the inner universally
quantified token property is discharged for the token "ab" of "ab  cd". -/
theorem tokenize_maximal_runs_witness :
    strConcat (Tokenize "ab  cd") = "ab  cd" ∧
    ("ab".data ≠ [] ∧ ∀ c ∈ "ab".data, tokenClass c = runClass "ab".data) := by
  refine ⟨(tokenize_maximal_runs "ab  cd").2.1, ?_⟩
  have hmem : "ab" ∈ Tokenize "ab  cd" := by decide
  exact (tokenize_maximal_runs "ab  cd").2.2.1 "ab" hmem

/-- One output element of the edit-block aligner (`type blockRow struct`):
`delIdx`/`addIdx` index the buffered deletion/insertion lists, with the Go
sentinel `-1` meaning "no element on that side". -/
structure blockRow where
  delIdx : Int
  addIdx : Int
deriving DecidableEq, Repr

/-- One candidate pair of `greedyMatchPairs` (`type pairCandidate struct`).
The score lives in an arbitrary linear order `S`, abstracting the Go
`float64` similarity values, which the source only ever compares. -/
structure pairCandidate (S : Type) where
  delIdx : Nat
  addIdx : Nat
  score : S
  distance : Nat

/-- The constant `editPairComparisonLimit` of the source (`10_000`). -/
def editPairComparisonLimit : Nat := 10000

/-- Comparator passed to `sort.Slice` for candidates: score descending, then
distance ascending, then `delIdx` ascending, then `addIdx` ascending. -/
def candLess {S : Type} [LinearOrder S] (c d : pairCandidate S) : Bool :=
  if c.score ≠ d.score then decide (d.score < c.score)
  else if c.distance ≠ d.distance then decide (c.distance < d.distance)
  else if c.delIdx ≠ d.delIdx then decide (c.delIdx < d.delIdx)
  else decide (c.addIdx < d.addIdx)

/-- Comparator passed to `sort.Slice` for accepted matches in
`alignEditRows`: `delIdx` ascending, then `addIdx` ascending. -/
def matchLess (a b : blockRow) : Bool :=
  if a.delIdx ≠ b.delIdx then decide (a.delIdx < b.delIdx)
  else decide (a.addIdx < b.addIdx)

/-- Ordered insertion, the auxiliary step of `insertSortBy`. -/
def insertSorted {α : Type} (less : α → α → Bool) (x : α) : List α → List α
  | [] => [x]
  | y :: ys => if less x y then x :: y :: ys else y :: insertSorted less x ys

/-- Insertion sort; models Go `sort.Slice`.  Each comparator the source
passes to `sort.Slice` is a strict total order (ties are broken on distinct
index fields), so the sorted permutation is unique and this model agrees
with any correct sorting routine. -/
def insertSortBy {α : Type} (less : α → α → Bool) : List α → List α
  | [] => []
  | x :: xs => insertSorted less x (insertSortBy less xs)

/-- `crossesExisting` of the source: does `next` cross any accepted pair. -/
def crossesExisting (next : blockRow) (matchList : List blockRow) : Bool :=
  matchList.any (fun mt =>
    (decide (next.delIdx < mt.delIdx) && decide (mt.addIdx < next.addIdx)) ||
    (decide (mt.delIdx < next.delIdx) && decide (next.addIdx < mt.addIdx)))

/-- State of the greedy acceptance loop of `greedyMatchPairs` (`usedDel`,
`usedAdd`, `matches`). -/
structure GreedyState where
  usedDel : List Bool
  usedAdd : List Bool
  matchList : List blockRow

/-- Loop body of the greedy acceptance in `greedyMatchPairs`: skip used or
crossing candidates, otherwise accept. -/
def greedyStep {S : Type} (st : GreedyState) (c : pairCandidate S) : GreedyState :=
  if st.usedDel.getD c.delIdx false || st.usedAdd.getD c.addIdx false then st
  else if crossesExisting ⟨(c.delIdx : Int), (c.addIdx : Int)⟩ st.matchList then st
  else
    { usedDel := st.usedDel.set c.delIdx true,
      usedAdd := st.usedAdd.set c.addIdx true,
      matchList := st.matchList ++ [⟨(c.delIdx : Int), (c.addIdx : Int)⟩] }

/-- Go `strings.TrimSpace` on a rune list. -/
def trimSpace (s : List Char) : List Char :=
  ((s.dropWhile unicodeIsSpace).reverse.dropWhile unicodeIsSpace).reverse

/-- Go `strings.TrimSpace` on a string. -/
def trimSpaceStr (s : String) : String := String.mk (trimSpace s.data)

/-- Candidate generation of `greedyMatchPairs`: every pair `(i, j)` whose
similarity score (on the trimmed, tokenized lines) is not below `minScore`,
in `i`-major order as produced by the source's nested loops. -/
def candidateList {S : Type} [LinearOrder S] (sim : List String → List String → S)
    (dels adds : List String) (minScore : S) : List (pairCandidate S) :=
  let delTokens := dels.map (fun d => Tokenize (trimSpaceStr d))
  let addTokens := adds.map (fun a => Tokenize (trimSpaceStr a))
  ((List.range dels.length).map (fun i =>
    (List.range adds.length).filterMap (fun j =>
      if sim (delTokens.getD i []) (addTokens.getD j []) < minScore then none
      else some ⟨i, j, sim (delTokens.getD i []) (addTokens.getD j []),
        ((i : Int) - (j : Int)).natAbs⟩))).flatten

/-- `greedyMatchPairs` of the source, parameterized by the similarity
function `sim`, which stands for `SimilarityTokens` (referenced by the
source but not among the sources under verification). -/
def greedyMatchPairs {S : Type} [LinearOrder S] (sim : List String → List String → S)
    (dels adds : List String) (minScore : S) : List blockRow :=
  ((insertSortBy candLess (candidateList sim dels adds minScore)).foldl greedyStep
    { usedDel := List.replicate dels.length false,
      usedAdd := List.replicate adds.length false,
      matchList := [] }).matchList

/-- `makeSingleSideRows` of the source. -/
def makeSingleSideRows (oldSide : Bool) (n : Nat) : List blockRow :=
  (List.range n).map (fun (i : Nat) => if oldSide then ⟨(i : Int), -1⟩ else ⟨-1, (i : Int)⟩)

/-- `alignUnmatchedRows` of the source: all deletions unpaired, then all
insertions unpaired. -/
def alignUnmatchedRows (dels adds : List String) : List blockRow :=
  (List.range dels.length).map (fun (i : Nat) => (⟨(i : Int), -1⟩ : blockRow)) ++
  (List.range adds.length).map (fun (j : Nat) => (⟨-1, (j : Int)⟩ : blockRow))

/-- `alignEditRowsByIndex` of the source: purely positional pairing. -/
def alignEditRowsByIndex (dels adds : List String) : List blockRow :=
  (List.range (max dels.length adds.length)).map (fun i =>
    (⟨if i < dels.length then (i : Int) else -1,
      if i < adds.length then (i : Int) else -1⟩ : blockRow))

/-- The index sequence of a Go `for i := lo; i < hi; i++` loop, with `fuel`
its length. -/
def intRangeAux (lo : Int) : Nat → List Int
  | 0 => []
  | k + 1 => lo :: intRangeAux (lo + 1) k

/-- The integer interval `[lo, hi)` as a list. -/
def intRange (lo hi : Int) : List Int := intRangeAux lo (hi - lo).toNat

/-- Merge loop of `alignEditRows`: before each accepted pair emit the
unmatched deletions and insertions whose index lies strictly between the
previous and the current matched index, then the pair; finally the trailing
remainders of both sides. -/
def mergeAligned (nDels nAdds : Nat) : List blockRow → Int → Int → List blockRow
  | [], nextDel, nextAdd =>
    (intRange nextDel (nDels : Int)).map (fun i => (⟨i, -1⟩ : blockRow)) ++
    (intRange nextAdd (nAdds : Int)).map (fun j => (⟨-1, j⟩ : blockRow))
  | mt :: rest, nextDel, nextAdd =>
    (intRange nextDel mt.delIdx).map (fun i => (⟨i, -1⟩ : blockRow)) ++
    (intRange nextAdd mt.addIdx).map (fun j => (⟨-1, j⟩ : blockRow)) ++
    mt :: mergeAligned nDels nAdds rest (mt.delIdx + 1) (mt.addIdx + 1)

/-- `alignEditRows` of the source. -/
def alignEditRows {S : Type} [LinearOrder S] (sim : List String → List String → S)
    (minScore : S) (dels adds : List String) : List blockRow :=
  if dels.length = 0 then makeSingleSideRows false adds.length
  else if adds.length = 0 then makeSingleSideRows true dels.length
  else if editPairComparisonLimit < dels.length * adds.length then
    alignEditRowsByIndex dels adds
  else if (greedyMatchPairs sim dels adds minScore).length = 0 then
    alignUnmatchedRows dels adds
  else
    mergeAligned dels.length adds.length
      (insertSortBy matchLess (greedyMatchPairs sim dels adds minScore)) 0 0

/-- The deletion indices emitted by a row list, in order. -/
def delIdxs (rows : List blockRow) : List Int :=
  rows.filterMap (fun r => if 0 ≤ r.delIdx then some r.delIdx else none)

/-- The insertion indices emitted by a row list, in order. -/
def addIdxs (rows : List blockRow) : List Int :=
  rows.filterMap (fun r => if 0 ≤ r.addIdx then some r.addIdx else none)

/-- Number of rows carrying an old-side element. -/
def delSideCount (rows : List blockRow) : Nat :=
  rows.countP (fun r => decide (0 ≤ r.delIdx))

/-- Number of rows carrying a new-side element. -/
def addSideCount (rows : List blockRow) : Nat :=
  rows.countP (fun r => decide (0 ≤ r.addIdx))

/-- Number of rows pairing a deletion with an insertion. -/
def pairedCount (rows : List blockRow) : Nat :=
  rows.countP (fun r => decide (0 ≤ r.delIdx) && decide (0 ≤ r.addIdx))

/-- A fixed similarity function used to evaluate theorems on concrete
inputs: score 1 for identical token lists, 0 otherwise. -/
def simNat (a b : List String) : Nat := if a = b then 1 else 0

theorem mem_insertSorted {α : Type} (less : α → α → Bool) (x y : α) :
    ∀ (l : List α), y ∈ insertSorted less x l ↔ y = x ∨ y ∈ l := by
  intro l
  induction l with
  | nil => simp [insertSorted]
  | cons z zs ih =>
    by_cases h : less x z
    · simp only [insertSorted, h, if_pos]
      simp
    · simp only [insertSorted, h, if_neg, Bool.false_eq_true, not_false_iff]
      simp [ih]
      tauto

theorem perm_insertSorted {α : Type} (less : α → α → Bool) (x : α) :
    ∀ (l : List α), List.Perm (insertSorted less x l) (x :: l) := by
  intro l
  induction l with
  | nil => simp [insertSorted]
  | cons z zs ih =>
    by_cases h : less x z
    · simp [insertSorted, h]
    · simp only [insertSorted, h, if_neg, Bool.false_eq_true, not_false_iff]
      exact Trans.trans (List.Perm.cons z ih) (List.Perm.swap x z zs)

theorem perm_insertSortBy {α : Type} (less : α → α → Bool) :
    ∀ (l : List α), List.Perm (insertSortBy less l) l := by
  intro l
  induction l with
  | nil => simp [insertSortBy]
  | cons z zs ih =>
    exact Trans.trans (perm_insertSorted less z (insertSortBy less zs)) (List.Perm.cons z ih)

theorem pairwise_insertSorted {α : Type} (less : α → α → Bool)
    (hasym : ∀ a b, less a b = true → less b a = false)
    (htrans : ∀ a b c, less a b = true → less b c = true → less a c = true)
    (x : α) :
    ∀ (l : List α), List.Pairwise (fun a b => less b a = false) l →
      List.Pairwise (fun a b => less b a = false) (insertSorted less x l) := by
  intro l
  induction l with
  | nil => intro _; simp [insertSorted]
  | cons y ys ih =>
    intro hl
    rcases List.pairwise_cons.mp hl with ⟨hy, hys⟩
    by_cases h : less x y
    · simp only [insertSorted, h, if_pos]
      refine List.pairwise_cons.mpr ⟨?_, hl⟩
      intro z hz
      rcases List.mem_cons.mp hz with hz | hz
      · rw [hz]; exact hasym x y h
      · cases hcase : less z x with
        | false => rfl
        | true =>
          have hzy : less z y = true := htrans z x y hcase h
          rw [hy z hz] at hzy
          exact absurd hzy (by decide)
    · have hxy : less x y = false := by
        cases hcase : less x y with
        | false => rfl
        | true => exact absurd hcase h
      simp only [insertSorted, h, if_neg, Bool.false_eq_true, not_false_iff]
      refine List.pairwise_cons.mpr ⟨?_, ih hys⟩
      intro z hz
      rcases (mem_insertSorted less x z ys).mp hz with hz | hz
      · subst hz; exact hxy
      · exact hy z hz

theorem pairwise_insertSortBy {α : Type} (less : α → α → Bool)
    (hasym : ∀ a b, less a b = true → less b a = false)
    (htrans : ∀ a b c, less a b = true → less b c = true → less a c = true) :
    ∀ (l : List α), List.Pairwise (fun a b => less b a = false) (insertSortBy less l) := by
  intro l
  induction l with
  | nil => simp [insertSortBy]
  | cons z zs ih => exact pairwise_insertSorted less hasym htrans z _ ih

theorem getD_set_self : ∀ (l : List Bool) (i : Nat) (b : Bool), i < l.length →
    (l.set i b).getD i false = b := by
  intro l
  induction l with
  | nil => intro i b h; simp at h
  | cons x xs ih =>
    intro i b h
    cases i with
    | zero => simp
    | succ k => simpa using ih k b (by simpa using h)

theorem getD_set_ne : ∀ (l : List Bool) (i k : Nat) (b : Bool), i ≠ k →
    (l.set i b).getD k false = l.getD k false := by
  intro l
  induction l with
  | nil => intro i k b _; simp
  | cons x xs ih =>
    intro i k b hik
    cases i with
    | zero =>
      cases k with
      | zero => exact absurd rfl hik
      | succ k2 => simp
    | succ i2 =>
      cases k with
      | zero => simp
      | succ k2 => simpa using ih i2 k2 b (by omega)

/-- The non-crossing relation between two accepted pairs. -/
def noCrossRel (a b : blockRow) : Prop :=
  ¬(a.delIdx < b.delIdx ∧ b.addIdx < a.addIdx) ∧
  ¬(b.delIdx < a.delIdx ∧ a.addIdx < b.addIdx)

/-- The invariant relation between two distinct accepted pairs: distinct
indices on both sides and no crossing. -/
def matchRel (a b : blockRow) : Prop :=
  a.delIdx ≠ b.delIdx ∧ a.addIdx ≠ b.addIdx ∧ noCrossRel a b

theorem matchRel_symm : Symmetric matchRel := by
  intro a b h
  rcases h with ⟨h1, h2, h3, h4⟩
  exact ⟨fun hc => h1 hc.symm, fun hc => h2 hc.symm, h4, h3⟩

/-- Invariant of the greedy acceptance loop. -/
def GreedyInv (n m : Nat) (g : GreedyState) : Prop :=
  g.usedDel.length = n ∧ g.usedAdd.length = m ∧
  (∀ b ∈ g.matchList, ∃ i j : Nat, b = ⟨(i : Int), (j : Int)⟩ ∧ i < n ∧ j < m ∧
    g.usedDel.getD i false = true ∧ g.usedAdd.getD j false = true) ∧
  List.Pairwise matchRel g.matchList

theorem crossesExisting_eq_false {next : blockRow} {ml : List blockRow}
    (h : crossesExisting next ml = false) :
    ∀ mt ∈ ml, ¬(next.delIdx < mt.delIdx ∧ mt.addIdx < next.addIdx) ∧
      ¬(mt.delIdx < next.delIdx ∧ next.addIdx < mt.addIdx) := by
  intro mt hmt
  have hall : ∀ x ∈ ml,
      ¬(((decide (next.delIdx < x.delIdx) && decide (x.addIdx < next.addIdx)) ||
         (decide (x.delIdx < next.delIdx) && decide (next.addIdx < x.addIdx))) = true) := by
    intro x hx hpx
    have hany : crossesExisting next ml = true := by
      unfold crossesExisting
      exact List.any_eq_true.mpr ⟨x, hx, hpx⟩
    rw [h] at hany
    exact absurd hany (by decide)
  have hp := hall mt hmt
  simp only [Bool.or_eq_true, Bool.and_eq_true, decide_eq_true_eq, not_or, not_and] at hp
  exact ⟨fun hc => hp.1 hc.1 hc.2, fun hc => hp.2 hc.1 hc.2⟩

theorem greedyStep_inv {S : Type} (n m : Nat) (c : pairCandidate S)
    (hc1 : c.delIdx < n) (hc2 : c.addIdx < m) (g : GreedyState)
    (hg : GreedyInv n m g) : GreedyInv n m (greedyStep g c) := by
  rcases hg with ⟨hdl, hal, hmem, hpw⟩
  unfold greedyStep
  by_cases hused : (g.usedDel.getD c.delIdx false || g.usedAdd.getD c.addIdx false) = true
  · rw [if_pos hused]
    exact ⟨hdl, hal, hmem, hpw⟩
  · rw [if_neg hused]
    have hdfalse : g.usedDel.getD c.delIdx false = false := by
      cases hcase : g.usedDel.getD c.delIdx false with
      | false => rfl
      | true => exact absurd (by rw [hcase]; simp) hused
    have hafalse : g.usedAdd.getD c.addIdx false = false := by
      cases hcase : g.usedAdd.getD c.addIdx false with
      | false => rfl
      | true => exact absurd (by rw [hcase]; simp) hused
    by_cases hcross : crossesExisting ⟨(c.delIdx : Int), (c.addIdx : Int)⟩ g.matchList = true
    · rw [if_pos hcross]
      exact ⟨hdl, hal, hmem, hpw⟩
    · rw [if_neg hcross]
      have hcross' : crossesExisting ⟨(c.delIdx : Int), (c.addIdx : Int)⟩ g.matchList = false := by
        cases hcase : crossesExisting ⟨(c.delIdx : Int), (c.addIdx : Int)⟩ g.matchList with
        | false => rfl
        | true => exact absurd hcase hcross
      have hnc := crossesExisting_eq_false hcross'
      refine ⟨by simpa using hdl, by simpa using hal, ?_, ?_⟩
      · intro b hb
        rcases List.mem_append.mp hb with hb | hb
        · rcases hmem b hb with ⟨i, j, hbeq, hin, hjm, hdi, haj⟩
          have hine : c.delIdx ≠ i := by
            intro hcontra
            rw [hcontra] at hdfalse
            rw [hdi] at hdfalse
            exact absurd hdfalse (by decide)
          have hjne : c.addIdx ≠ j := by
            intro hcontra
            rw [hcontra] at hafalse
            rw [haj] at hafalse
            exact absurd hafalse (by decide)
          refine ⟨i, j, hbeq, hin, hjm, ?_, ?_⟩
          · rw [getD_set_ne g.usedDel c.delIdx i true hine]; exact hdi
          · rw [getD_set_ne g.usedAdd c.addIdx j true hjne]; exact haj
        · have hb' : b = (⟨(c.delIdx : Int), (c.addIdx : Int)⟩ : blockRow) := by
            simpa using hb
          refine ⟨c.delIdx, c.addIdx, hb', hc1, hc2, ?_, ?_⟩
          · exact getD_set_self g.usedDel c.delIdx true (by rw [hdl]; exact hc1)
          · exact getD_set_self g.usedAdd c.addIdx true (by rw [hal]; exact hc2)
      · rw [List.pairwise_append]
        refine ⟨hpw, List.pairwise_singleton _ _, ?_⟩
        intro a ha b hb
        have hb' : b = (⟨(c.delIdx : Int), (c.addIdx : Int)⟩ : blockRow) := by
          simpa using hb
        subst hb'
        rcases hmem a ha with ⟨i, j, haeq, hin, hjm, hdi, haj⟩
        have hine : i ≠ c.delIdx := by
          intro hcontra
          rw [hcontra] at hdi
          rw [hdi] at hdfalse
          exact absurd hdfalse (by decide)
        have hjne : j ≠ c.addIdx := by
          intro hcontra
          rw [hcontra] at haj
          rw [haj] at hafalse
          exact absurd hafalse (by decide)
        have hnca := hnc a ha
        subst haeq
        unfold matchRel noCrossRel
        refine ⟨?_, ?_, hnca.2, hnca.1⟩
        · show (i : Int) ≠ (c.delIdx : Int)
          intro hcontra
          exact hine (by exact_mod_cast hcontra)
        · show (j : Int) ≠ (c.addIdx : Int)
          intro hcontra
          exact hjne (by exact_mod_cast hcontra)

theorem greedy_foldl_inv {S : Type} (n m : Nat) :
    ∀ (cands : List (pairCandidate S)) (g : GreedyState),
      (∀ c ∈ cands, c.delIdx < n ∧ c.addIdx < m) → GreedyInv n m g →
      GreedyInv n m (cands.foldl greedyStep g) := by
  intro cands
  induction cands with
  | nil => intro g _ hg; exact hg
  | cons c cs ih =>
    intro g hb hg
    have hc := hb c (List.mem_cons_self c cs)
    exact ih (greedyStep g c) (fun x hx => hb x (List.mem_cons_of_mem c hx))
      (greedyStep_inv n m c hc.1 hc.2 g hg)

theorem candidateList_bounds {S : Type} [LinearOrder S] (sim : List String → List String → S)
    (dels adds : List String) (minScore : S) :
    ∀ c ∈ candidateList sim dels adds minScore,
      c.delIdx < dels.length ∧ c.addIdx < adds.length := by
  intro c hc
  unfold candidateList at hc
  simp only [List.mem_flatten, List.mem_map] at hc
  rcases hc with ⟨inner, ⟨i, hi, hinner⟩, hcin⟩
  rw [← hinner] at hcin
  simp only [List.mem_filterMap] at hcin
  rcases hcin with ⟨j, hj, hcj⟩
  split at hcj
  · exact absurd hcj (by simp)
  · have hceq := Option.some.inj hcj
    rw [← hceq]
    exact ⟨List.mem_range.mp hi, List.mem_range.mp hj⟩

theorem greedyMatchPairs_inv {S : Type} [LinearOrder S] (sim : List String → List String → S)
    (dels adds : List String) (minScore : S) :
    (∀ b ∈ greedyMatchPairs sim dels adds minScore, ∃ i j : Nat,
      b = ⟨(i : Int), (j : Int)⟩ ∧ i < dels.length ∧ j < adds.length) ∧
    List.Pairwise matchRel (greedyMatchPairs sim dels adds minScore) := by
  have hperm := perm_insertSortBy candLess (candidateList sim dels adds minScore)
  have hbounds : ∀ c ∈ insertSortBy candLess (candidateList sim dels adds minScore),
      c.delIdx < dels.length ∧ c.addIdx < adds.length := by
    intro c hc
    exact candidateList_bounds sim dels adds minScore c (hperm.mem_iff.mp hc)
  have hinit : GreedyInv dels.length adds.length
      { usedDel := List.replicate dels.length false,
        usedAdd := List.replicate adds.length false, matchList := [] } := by
    refine ⟨by simp, by simp, ?_, List.Pairwise.nil⟩
    intro b hb
    simp at hb
  have hfin := greedy_foldl_inv dels.length adds.length _ _ hbounds hinit
  rcases hfin with ⟨_, _, hmem, hpw⟩
  constructor
  · intro b hb
    rcases hmem b hb with ⟨i, j, hbeq, hin, hjm, _, _⟩
    exact ⟨i, j, hbeq, hin, hjm⟩
  · exact hpw

/-- C6: any two distinct pairs accepted by the greedy matcher are
non-crossing, for every deletions/insertions input and every possible
outcome of the similarity scoring: `(i2 < i1 and j2 > j1)` never holds,
`(i2 > i1 and j2 < j1)` never holds, and hence `i1 < i2` iff `j1 < j2`, so
accepted pairs preserve the relative left-to-right order of both sides. -/
theorem greedyMatchPairs_noncrossing {S : Type} [LinearOrder S]
    (sim : List String → List String → S) (minScore : S) (dels adds : List String)
    (p1 p2 : blockRow)
    (h1 : p1 ∈ greedyMatchPairs sim dels adds minScore)
    (h2 : p2 ∈ greedyMatchPairs sim dels adds minScore)
    (hne : p1 ≠ p2) :
    ¬(p2.delIdx < p1.delIdx ∧ p1.addIdx < p2.addIdx) ∧
    ¬(p1.delIdx < p2.delIdx ∧ p2.addIdx < p1.addIdx) ∧
    (p1.delIdx < p2.delIdx ↔ p1.addIdx < p2.addIdx) := by
  have hpw := (greedyMatchPairs_inv sim dels adds minScore).2
  have hrel := List.Pairwise.forall matchRel_symm hpw h1 h2 hne
  rcases hrel with ⟨hd, ha, hnc1, hnc2⟩
  refine ⟨fun hcontra => hnc2 ⟨hcontra.1, hcontra.2⟩,
    fun hcontra => hnc1 ⟨hcontra.1, hcontra.2⟩, ?_, ?_⟩
  · intro hlt
    rcases lt_trichotomy p1.addIdx p2.addIdx with h | h | h
    · exact h
    · exact absurd h ha
    · exact absurd ⟨hlt, h⟩ hnc1
  · intro hlt
    rcases lt_trichotomy p1.delIdx p2.delIdx with h | h | h
    · exact h
    · exact absurd h hd
    · exact absurd ⟨h, hlt⟩ hnc2

/-- Evaluation of the C6 theorem at a concrete input: for identical-line
scoring the greedy matcher accepts the pairs (0,0) and (1,1), and they are
non-crossing. -/
theorem greedyMatchPairs_noncrossing_witness :
    ¬((⟨1, 1⟩ : blockRow).delIdx < (⟨0, 0⟩ : blockRow).delIdx ∧
      (⟨0, 0⟩ : blockRow).addIdx < (⟨1, 1⟩ : blockRow).addIdx) ∧
    ¬((⟨0, 0⟩ : blockRow).delIdx < (⟨1, 1⟩ : blockRow).delIdx ∧
      (⟨1, 1⟩ : blockRow).addIdx < (⟨0, 0⟩ : blockRow).addIdx) ∧
    ((⟨0, 0⟩ : blockRow).delIdx < (⟨1, 1⟩ : blockRow).delIdx ↔
      (⟨0, 0⟩ : blockRow).addIdx < (⟨1, 1⟩ : blockRow).addIdx) :=
  greedyMatchPairs_noncrossing simNat 1 ["ab", "cd"] ["ab", "cd"]
    ⟨0, 0⟩ ⟨1, 1⟩ (by decide) (by decide) (by decide)

theorem length_intRangeAux : ∀ (k : Nat) (lo : Int), (intRangeAux lo k).length = k := by
  intro k
  induction k with
  | zero => intro lo; rfl
  | succ n ih => intro lo; simp [intRangeAux, ih]

theorem mem_intRangeAux : ∀ (k : Nat) (lo x : Int),
    x ∈ intRangeAux lo k ↔ lo ≤ x ∧ x < lo + k := by
  intro k
  induction k with
  | zero => intro lo x; simp [intRangeAux]
  | succ n ih =>
    intro lo x
    simp [intRangeAux, ih]
    omega

theorem intRange_eq_nil {lo hi : Int} (h : hi ≤ lo) : intRange lo hi = [] := by
  unfold intRange
  have h0 : (hi - lo).toNat = 0 := by omega
  rw [h0]
  rfl

theorem intRange_cons {lo hi : Int} (h : lo < hi) :
    intRange lo hi = lo :: intRange (lo + 1) hi := by
  unfold intRange
  have h1 : (hi - lo).toNat = (hi - (lo + 1)).toNat + 1 := by omega
  rw [h1]
  rfl

theorem length_intRange (lo hi : Int) : (intRange lo hi).length = (hi - lo).toNat := by
  unfold intRange
  exact length_intRangeAux _ lo

theorem mem_intRange {lo hi x : Int} : x ∈ intRange lo hi ↔ lo ≤ x ∧ x < hi := by
  unfold intRange
  rw [mem_intRangeAux]
  omega

theorem intRange_append : ∀ (k : Nat) (a b c : Int), (b - a).toNat = k → a ≤ b → b ≤ c →
    intRange a b ++ intRange b c = intRange a c := by
  intro k
  induction k with
  | zero =>
    intro a b c hk h1 h2
    have hba : b = a := by omega
    subst hba
    rw [intRange_eq_nil (le_refl b)]
    simp
  | succ n ih =>
    intro a b c hk h1 h2
    have hab : a < b := by omega
    rw [intRange_cons hab, intRange_cons (lt_of_lt_of_le hab h2)]
    simp only [List.cons_append]
    congr 1
    exact ih (a + 1) b c (by omega) (by omega) h2

theorem countP_intRangeAux (x : Int) : ∀ (k : Nat) (lo : Int),
    (intRangeAux lo k).countP (fun y => decide (y = x)) =
      if lo ≤ x ∧ x < lo + k then 1 else 0 := by
  intro k
  induction k with
  | zero =>
    intro lo
    simp only [intRangeAux, List.countP_nil]
    have hcond : ¬(lo ≤ x ∧ x < lo + ((0 : Nat) : Int)) := by omega
    rw [if_neg hcond]
  | succ n ih =>
    intro lo
    simp only [intRangeAux, List.countP_cons, ih, decide_eq_true_eq]
    split_ifs <;> omega

theorem countP_intRange (lo hi x : Int) :
    (intRange lo hi).countP (fun y => decide (y = x)) = if lo ≤ x ∧ x < hi then 1 else 0 := by
  unfold intRange
  rw [countP_intRangeAux]
  split_ifs <;> omega

theorem intRangeAux_eq_range_map : ∀ (k : Nat) (lo : Int),
    intRangeAux lo k = (List.range k).map (fun (i : Nat) => lo + (i : Int)) := by
  intro k
  induction k with
  | zero => intro lo; rfl
  | succ n ih =>
    intro lo
    rw [List.range_succ_eq_map]
    simp only [intRangeAux, List.map_cons, List.map_map]
    congr 1
    · simp
    · rw [ih (lo + 1)]
      apply List.map_congr_left
      intro i _
      simp only [Function.comp_apply]
      push_cast
      ring

theorem range_map_cast (k : Nat) :
    (List.range k).map (fun (i : Nat) => (i : Int)) = intRange 0 (k : Int) := by
  unfold intRange
  have h0 : ((k : Int) - 0).toNat = k := by omega
  rw [h0, intRangeAux_eq_range_map]
  apply List.map_congr_left
  intro i _
  omega

theorem delIdxs_append (l1 l2 : List blockRow) :
    delIdxs (l1 ++ l2) = delIdxs l1 ++ delIdxs l2 := by
  simp [delIdxs]

theorem addIdxs_append (l1 l2 : List blockRow) :
    addIdxs (l1 ++ l2) = addIdxs l1 ++ addIdxs l2 := by
  simp [addIdxs]

theorem delIdxs_cons_of_nonneg (r : blockRow) (rows : List blockRow) (h : 0 ≤ r.delIdx) :
    delIdxs (r :: rows) = r.delIdx :: delIdxs rows := by
  simp [delIdxs, List.filterMap_cons, h]

theorem delIdxs_cons_of_neg (r : blockRow) (rows : List blockRow) (h : ¬0 ≤ r.delIdx) :
    delIdxs (r :: rows) = delIdxs rows := by
  simp [delIdxs, List.filterMap_cons, h]

theorem addIdxs_cons_of_nonneg (r : blockRow) (rows : List blockRow) (h : 0 ≤ r.addIdx) :
    addIdxs (r :: rows) = r.addIdx :: addIdxs rows := by
  simp [addIdxs, List.filterMap_cons, h]

theorem addIdxs_cons_of_neg (r : blockRow) (rows : List blockRow) (h : ¬0 ≤ r.addIdx) :
    addIdxs (r :: rows) = addIdxs rows := by
  simp [addIdxs, List.filterMap_cons, h]

theorem filterMap_if_nonneg : ∀ (l : List Int), (∀ x ∈ l, 0 ≤ x) →
    l.filterMap (fun i => if 0 ≤ i then some i else none) = l := by
  intro l
  induction l with
  | nil => intro _; rfl
  | cons x xs ih =>
    intro h
    have hx : 0 ≤ x := h x (List.mem_cons_self x xs)
    simp only [List.filterMap_cons, hx, if_pos]
    rw [ih (fun y hy => h y (List.mem_cons_of_mem x hy))]

theorem filterMap_eq_nil_of_none {α β : Type} (f : α → Option β) :
    ∀ (l : List α), (∀ x ∈ l, f x = none) → l.filterMap f = [] := by
  intro l
  induction l with
  | nil => intro _; rfl
  | cons x xs ih =>
    intro h
    simp only [List.filterMap_cons, h x (List.mem_cons_self x xs)]
    exact ih (fun y hy => h y (List.mem_cons_of_mem x hy))

theorem delIdxs_delGap (lo hi : Int) (h : 0 ≤ lo) :
    delIdxs ((intRange lo hi).map (fun i => (⟨i, -1⟩ : blockRow))) = intRange lo hi := by
  unfold delIdxs
  rw [List.filterMap_map]
  exact filterMap_if_nonneg (intRange lo hi)
    (fun x hx => le_trans h (mem_intRange.mp hx).1)

theorem delIdxs_addGap (lo hi : Int) :
    delIdxs ((intRange lo hi).map (fun j => (⟨-1, j⟩ : blockRow))) = [] := by
  unfold delIdxs
  rw [List.filterMap_map]
  exact filterMap_eq_nil_of_none _ (intRange lo hi) (fun x _ => rfl)

theorem addIdxs_addGap (lo hi : Int) (h : 0 ≤ lo) :
    addIdxs ((intRange lo hi).map (fun j => (⟨-1, j⟩ : blockRow))) = intRange lo hi := by
  unfold addIdxs
  rw [List.filterMap_map]
  exact filterMap_if_nonneg (intRange lo hi)
    (fun x hx => le_trans h (mem_intRange.mp hx).1)

theorem addIdxs_delGap (lo hi : Int) :
    addIdxs ((intRange lo hi).map (fun i => (⟨i, -1⟩ : blockRow))) = [] := by
  unfold addIdxs
  rw [List.filterMap_map]
  exact filterMap_eq_nil_of_none _ (intRange lo hi) (fun x _ => rfl)

theorem makeSingleSideRows_false_eq (k : Nat) :
    makeSingleSideRows false k = (intRange 0 (k : Int)).map (fun j => (⟨-1, j⟩ : blockRow)) := by
  rw [← range_map_cast k, List.map_map]
  unfold makeSingleSideRows
  apply List.map_congr_left
  intro i _
  simp

theorem makeSingleSideRows_true_eq (k : Nat) :
    makeSingleSideRows true k = (intRange 0 (k : Int)).map (fun i => (⟨i, -1⟩ : blockRow)) := by
  rw [← range_map_cast k, List.map_map]
  unfold makeSingleSideRows
  apply List.map_congr_left
  intro i _
  simp

theorem alignUnmatchedRows_eq (dels adds : List String) :
    alignUnmatchedRows dels adds =
      (intRange 0 (dels.length : Int)).map (fun i => (⟨i, -1⟩ : blockRow)) ++
      (intRange 0 (adds.length : Int)).map (fun j => (⟨-1, j⟩ : blockRow)) := by
  unfold alignUnmatchedRows
  rw [← range_map_cast dels.length, ← range_map_cast adds.length, List.map_map, List.map_map]
  rfl

theorem filterMap_range_lt : ∀ (K n : Nat),
    (List.range K).filterMap (fun i => if i < n then some ((i : Nat) : Int) else none) =
      intRange 0 ((min n K : Nat) : Int) := by
  intro K
  induction K with
  | zero =>
    intro n
    rw [List.range_zero]
    rw [intRange_eq_nil (by simp)]
    rfl
  | succ K ih =>
    intro n
    rw [List.range_succ, List.filterMap_append, ih]
    by_cases h : K < n
    · have h1 : min n (K + 1) = K + 1 := by omega
      have h2 : min n K = K := by omega
      rw [h1, h2]
      simp only [List.filterMap_cons, h, if_pos, List.filterMap_nil]
      have hsingle : intRange (K : Int) ((K + 1 : Nat) : Int) = [(K : Int)] := by
        rw [intRange_cons (by push_cast; omega)]
        rw [intRange_eq_nil (by push_cast; omega)]
      rw [← hsingle]
      exact intRange_append ((K : Int) - 0).toNat 0 (K : Int) ((K + 1 : Nat) : Int) rfl
        (by omega) (by push_cast; omega)
    · have h1 : min n (K + 1) = min n K := by omega
      rw [h1]
      simp [h]

theorem delIdxs_byIndex (dels adds : List String) :
    delIdxs (alignEditRowsByIndex dels adds) = intRange 0 (dels.length : Int) := by
  unfold delIdxs alignEditRowsByIndex
  rw [List.filterMap_map]
  have heq : ((fun r : blockRow => if 0 ≤ r.delIdx then some r.delIdx else none) ∘
      (fun i : Nat => (⟨if i < dels.length then (i : Int) else -1,
        if i < adds.length then (i : Int) else -1⟩ : blockRow))) =
      (fun i : Nat => if i < dels.length then some ((i : Nat) : Int) else none) := by
    funext i
    by_cases h : i < dels.length
    · simp [h]
    · simp [h]
  rw [heq, filterMap_range_lt,
    show min dels.length (max dels.length adds.length) = dels.length from by omega]

theorem addIdxs_byIndex (dels adds : List String) :
    addIdxs (alignEditRowsByIndex dels adds) = intRange 0 (adds.length : Int) := by
  unfold addIdxs alignEditRowsByIndex
  rw [List.filterMap_map]
  have heq : ((fun r : blockRow => if 0 ≤ r.addIdx then some r.addIdx else none) ∘
      (fun i : Nat => (⟨if i < dels.length then (i : Int) else -1,
        if i < adds.length then (i : Int) else -1⟩ : blockRow))) =
      (fun i : Nat => if i < adds.length then some ((i : Nat) : Int) else none) := by
    funext i
    by_cases h : i < adds.length
    · simp [h]
    · simp [h]
  rw [heq, filterMap_range_lt,
    show min adds.length (max dels.length adds.length) = adds.length from by omega]

theorem byIndex_sides (dels adds : List String) :
    ∀ r ∈ alignEditRowsByIndex dels adds, 0 ≤ r.delIdx ∨ 0 ≤ r.addIdx := by
  intro r hr
  unfold alignEditRowsByIndex at hr
  rcases List.mem_map.mp hr with ⟨i, hi, rfl⟩
  have hilt := List.mem_range.mp hi
  by_cases h : i < dels.length
  · left
    show (0 : Int) ≤ if i < dels.length then (i : Int) else -1
    rw [if_pos h]
    omega
  · right
    have h2 : i < adds.length := by omega
    show (0 : Int) ≤ if i < adds.length then (i : Int) else -1
    rw [if_pos h2]
    omega

theorem mergeAligned_char (n m : Nat) :
    ∀ (ms : List blockRow) (nd na : Int),
      (∀ b ∈ ms, 0 ≤ b.delIdx ∧ b.delIdx < (n : Int) ∧ 0 ≤ b.addIdx ∧ b.addIdx < (m : Int)) →
      List.Pairwise (fun a b => a.delIdx < b.delIdx ∧ a.addIdx < b.addIdx) ms →
      0 ≤ nd → (∀ b ∈ ms, nd ≤ b.delIdx) → nd ≤ (n : Int) →
      0 ≤ na → (∀ b ∈ ms, na ≤ b.addIdx) → na ≤ (m : Int) →
      delIdxs (mergeAligned n m ms nd na) = intRange nd (n : Int) ∧
      addIdxs (mergeAligned n m ms nd na) = intRange na (m : Int) ∧
      ∀ r ∈ mergeAligned n m ms nd na, 0 ≤ r.delIdx ∨ 0 ≤ r.addIdx := by
  intro ms
  induction ms with
  | nil =>
    intro nd na hb hpw hnd0 hndlb hndn hna0 hnalb hnam
    simp only [mergeAligned]
    refine ⟨?_, ?_, ?_⟩
    · rw [delIdxs_append, delIdxs_delGap nd (n : Int) hnd0, delIdxs_addGap, List.append_nil]
    · rw [addIdxs_append, addIdxs_delGap, addIdxs_addGap na (m : Int) hna0, List.nil_append]
    · intro r hr
      rcases List.mem_append.mp hr with hr | hr
      · rcases List.mem_map.mp hr with ⟨i, hi, rfl⟩
        left
        show 0 ≤ i
        exact le_trans hnd0 (mem_intRange.mp hi).1
      · rcases List.mem_map.mp hr with ⟨j, hj, rfl⟩
        right
        show 0 ≤ j
        exact le_trans hna0 (mem_intRange.mp hj).1
  | cons mt rest ih =>
    intro nd na hb hpw hnd0 hndlb hndn hna0 hnalb hnam
    have hmt := hb mt (List.mem_cons_self mt rest)
    rcases List.pairwise_cons.mp hpw with ⟨hhead, htail⟩
    have hndmt : nd ≤ mt.delIdx := hndlb mt (List.mem_cons_self mt rest)
    have hnamt : na ≤ mt.addIdx := hnalb mt (List.mem_cons_self mt rest)
    have hihyp := ih (mt.delIdx + 1) (mt.addIdx + 1)
      (fun b hb2 => hb b (List.mem_cons_of_mem mt hb2))
      htail
      (by omega)
      (fun b hb2 => by have := hhead b hb2; omega)
      (by omega)
      (by omega)
      (fun b hb2 => by have := hhead b hb2; omega)
      (by omega)
    rcases hihyp with ⟨ihdel, ihadd, ihsides⟩
    simp only [mergeAligned]
    refine ⟨?_, ?_, ?_⟩
    · rw [delIdxs_append, delIdxs_append, delIdxs_delGap nd mt.delIdx hnd0, delIdxs_addGap,
        delIdxs_cons_of_nonneg mt _ hmt.1, ihdel, List.append_nil,
        ← intRange_cons (show mt.delIdx < (n : Int) from hmt.2.1)]
      exact intRange_append (mt.delIdx - nd).toNat nd mt.delIdx (n : Int) rfl hndmt
        (le_of_lt hmt.2.1)
    · rw [addIdxs_append, addIdxs_append, addIdxs_delGap, addIdxs_addGap na mt.addIdx hna0,
        addIdxs_cons_of_nonneg mt _ hmt.2.2.1, ihadd, List.nil_append,
        ← intRange_cons (show mt.addIdx < (m : Int) from hmt.2.2.2)]
      exact intRange_append (mt.addIdx - na).toNat na mt.addIdx (m : Int) rfl hnamt
        (le_of_lt hmt.2.2.2)
    · intro r hr
      rcases List.mem_append.mp hr with hr | hr
      · rcases List.mem_append.mp hr with hr | hr
        · rcases List.mem_map.mp hr with ⟨i, hi, rfl⟩
          left
          show 0 ≤ i
          exact le_trans hnd0 (mem_intRange.mp hi).1
        · rcases List.mem_map.mp hr with ⟨j, hj, rfl⟩
          right
          show 0 ≤ j
          exact le_trans hna0 (mem_intRange.mp hj).1
      · rcases List.mem_cons.mp hr with hr | hr
        · subst hr
          left
          exact hmt.1
        · exact ihsides r hr

theorem matchLess_eq_true_iff (a b : blockRow) :
    matchLess a b = true ↔
      (a.delIdx < b.delIdx ∨ (a.delIdx = b.delIdx ∧ a.addIdx < b.addIdx)) := by
  unfold matchLess
  by_cases hd : a.delIdx = b.delIdx
  · simp [hd]
  · simp [hd]

theorem matchLess_asymm : ∀ a b, matchLess a b = true → matchLess b a = false := by
  intro a b h
  rw [matchLess_eq_true_iff] at h
  cases hcase : matchLess b a with
  | false => rfl
  | true =>
    rw [matchLess_eq_true_iff] at hcase
    exact absurd hcase (by omega)

theorem matchLess_trans : ∀ a b c,
    matchLess a b = true → matchLess b c = true → matchLess a c = true := by
  intro a b c hab hbc
  rw [matchLess_eq_true_iff] at hab hbc ⊢
  omega

theorem sortedMatches_bounds {S : Type} [LinearOrder S] (sim : List String → List String → S)
    (minScore : S) (dels adds : List String) :
    ∀ b ∈ insertSortBy matchLess (greedyMatchPairs sim dels adds minScore),
      0 ≤ b.delIdx ∧ b.delIdx < (dels.length : Int) ∧
      0 ≤ b.addIdx ∧ b.addIdx < (adds.length : Int) := by
  intro b hb
  have hmem := (perm_insertSortBy matchLess (greedyMatchPairs sim dels adds minScore)).mem_iff.mp hb
  rcases (greedyMatchPairs_inv sim dels adds minScore).1 b hmem with ⟨i, j, hbeq, hin, hjm⟩
  subst hbeq
  refine ⟨?_, ?_, ?_, ?_⟩
  · show (0 : Int) ≤ (i : Int)
    omega
  · show ((i : Nat) : Int) < ((dels.length : Nat) : Int)
    omega
  · show (0 : Int) ≤ (j : Int)
    omega
  · show ((j : Nat) : Int) < ((adds.length : Nat) : Int)
    omega

theorem sortedMatches_pairwise {S : Type} [LinearOrder S] (sim : List String → List String → S)
    (minScore : S) (dels adds : List String) :
    List.Pairwise (fun a b => a.delIdx < b.delIdx ∧ a.addIdx < b.addIdx)
      (insertSortBy matchLess (greedyMatchPairs sim dels adds minScore)) := by
  have hperm := perm_insertSortBy matchLess (greedyMatchPairs sim dels adds minScore)
  have hmr : List.Pairwise matchRel
      (insertSortBy matchLess (greedyMatchPairs sim dels adds minScore)) :=
    (List.Perm.pairwise_iff (fun {a b} h => matchRel_symm h) hperm).mpr
      (greedyMatchPairs_inv sim dels adds minScore).2
  have hsort := pairwise_insertSortBy matchLess matchLess_asymm matchLess_trans
    (greedyMatchPairs sim dels adds minScore)
  have hand := hsort.and hmr
  refine hand.imp ?_
  intro a b hab
  rcases hab with ⟨hless, hd, ha, hnc1, hnc2⟩
  have hless' : ¬(b.delIdx < a.delIdx ∨ (b.delIdx = a.delIdx ∧ b.addIdx < a.addIdx)) := by
    intro hc
    rw [← matchLess_eq_true_iff] at hc
    rw [hless] at hc
    exact absurd hc (by decide)
  exact ⟨by omega, by omega⟩

theorem alignEditRows_char {S : Type} [LinearOrder S] (sim : List String → List String → S)
    (minScore : S) (dels adds : List String) :
    delIdxs (alignEditRows sim minScore dels adds) = intRange 0 (dels.length : Int) ∧
    addIdxs (alignEditRows sim minScore dels adds) = intRange 0 (adds.length : Int) ∧
    ∀ r ∈ alignEditRows sim minScore dels adds, 0 ≤ r.delIdx ∨ 0 ≤ r.addIdx := by
  unfold alignEditRows
  by_cases h1 : dels.length = 0
  · rw [if_pos h1, makeSingleSideRows_false_eq]
    refine ⟨?_, ?_, ?_⟩
    · rw [delIdxs_addGap, h1, intRange_eq_nil (by simp)]
    · exact addIdxs_addGap 0 _ (le_refl 0)
    · intro r hr
      rcases List.mem_map.mp hr with ⟨j, hj, rfl⟩
      right
      show 0 ≤ j
      exact (mem_intRange.mp hj).1
  · rw [if_neg h1]
    by_cases h2 : adds.length = 0
    · rw [if_pos h2, makeSingleSideRows_true_eq]
      refine ⟨?_, ?_, ?_⟩
      · exact delIdxs_delGap 0 _ (le_refl 0)
      · rw [addIdxs_delGap, h2, intRange_eq_nil (by simp)]
      · intro r hr
        rcases List.mem_map.mp hr with ⟨i, hi, rfl⟩
        left
        show 0 ≤ i
        exact (mem_intRange.mp hi).1
    · rw [if_neg h2]
      by_cases h3 : editPairComparisonLimit < dels.length * adds.length
      · rw [if_pos h3]
        exact ⟨delIdxs_byIndex dels adds, addIdxs_byIndex dels adds, byIndex_sides dels adds⟩
      · rw [if_neg h3]
        by_cases h4 : (greedyMatchPairs sim dels adds minScore).length = 0
        · rw [if_pos h4, alignUnmatchedRows_eq]
          refine ⟨?_, ?_, ?_⟩
          · rw [delIdxs_append, delIdxs_delGap 0 _ (le_refl 0), delIdxs_addGap, List.append_nil]
          · rw [addIdxs_append, addIdxs_delGap, addIdxs_addGap 0 _ (le_refl 0), List.nil_append]
          · intro r hr
            rcases List.mem_append.mp hr with hr | hr
            · rcases List.mem_map.mp hr with ⟨i, hi, rfl⟩
              left
              show 0 ≤ i
              exact (mem_intRange.mp hi).1
            · rcases List.mem_map.mp hr with ⟨j, hj, rfl⟩
              right
              show 0 ≤ j
              exact (mem_intRange.mp hj).1
        · rw [if_neg h4]
          have hbounds := sortedMatches_bounds sim minScore dels adds
          have hpw := sortedMatches_pairwise sim minScore dels adds
          exact mergeAligned_char dels.length adds.length _ 0 0 hbounds hpw
            (le_refl 0) (fun b hb => (hbounds b hb).1) (by omega)
            (le_refl 0) (fun b hb => (hbounds b hb).2.2.1) (by omega)

theorem length_delIdxs_eq : ∀ (rows : List blockRow),
    (delIdxs rows).length = delSideCount rows := by
  intro rows
  induction rows with
  | nil => rfl
  | cons r rs ih =>
    unfold delSideCount at ih ⊢
    by_cases h : 0 ≤ r.delIdx
    · rw [delIdxs_cons_of_nonneg r rs h, List.countP_cons]
      simp [h, ih]
    · rw [delIdxs_cons_of_neg r rs h, List.countP_cons]
      simp [h, ih]

theorem length_addIdxs_eq : ∀ (rows : List blockRow),
    (addIdxs rows).length = addSideCount rows := by
  intro rows
  induction rows with
  | nil => rfl
  | cons r rs ih =>
    unfold addSideCount at ih ⊢
    by_cases h : 0 ≤ r.addIdx
    · rw [addIdxs_cons_of_nonneg r rs h, List.countP_cons]
      simp [h, ih]
    · rw [addIdxs_cons_of_neg r rs h, List.countP_cons]
      simp [h, ih]

theorem countP_del_eq (i : Nat) : ∀ (rows : List blockRow),
    rows.countP (fun r => decide (r.delIdx = (i : Int))) =
      (delIdxs rows).countP (fun x => decide (x = (i : Int))) := by
  intro rows
  induction rows with
  | nil => rfl
  | cons r rs ih =>
    by_cases h : 0 ≤ r.delIdx
    · rw [delIdxs_cons_of_nonneg r rs h, List.countP_cons, List.countP_cons, ih]
    · rw [delIdxs_cons_of_neg r rs h, List.countP_cons, ih]
      have hne : ¬(r.delIdx = (i : Int)) := by omega
      simp [hne]

theorem countP_add_eq (j : Nat) : ∀ (rows : List blockRow),
    rows.countP (fun r => decide (r.addIdx = (j : Int))) =
      (addIdxs rows).countP (fun x => decide (x = (j : Int))) := by
  intro rows
  induction rows with
  | nil => rfl
  | cons r rs ih =>
    by_cases h : 0 ≤ r.addIdx
    · rw [addIdxs_cons_of_nonneg r rs h, List.countP_cons, List.countP_cons, ih]
    · rw [addIdxs_cons_of_neg r rs h, List.countP_cons, ih]
      have hne : ¬(r.addIdx = (j : Int)) := by omega
      simp [hne]

theorem countP_or_and {α : Type} (p q : α → Bool) :
    ∀ (l : List α), l.countP p + l.countP q =
      l.countP (fun a => p a && q a) + l.countP (fun a => p a || q a) := by
  intro l
  induction l with
  | nil => rfl
  | cons x xs ih =>
    simp only [List.countP_cons]
    by_cases hp : p x <;> by_cases hq : q x <;> simp [hp, hq] <;> omega

/-- C5: for every block of `n` buffered deletions and `m` buffered
insertions, and every possible outcome of the similarity scoring, the
alignment emits exactly `n + m - p` elements, `p` being the number of
matched pairs (rows carrying both sides); each deletion index occurs in
exactly one emitted element and each insertion index occurs in exactly one
emitted element, so the block's flush emits exactly `n` old-side lines and
exactly `m` new-side lines. -/
theorem alignEditRows_conservation {S : Type} [LinearOrder S]
    (sim : List String → List String → S) (minScore : S) (dels adds : List String) :
    (alignEditRows sim minScore dels adds).length +
        pairedCount (alignEditRows sim minScore dels adds) =
      dels.length + adds.length ∧
    delSideCount (alignEditRows sim minScore dels adds) = dels.length ∧
    addSideCount (alignEditRows sim minScore dels adds) = adds.length ∧
    (∀ i : Nat, (alignEditRows sim minScore dels adds).countP
        (fun r => decide (r.delIdx = (i : Int))) = if i < dels.length then 1 else 0) ∧
    (∀ j : Nat, (alignEditRows sim minScore dels adds).countP
        (fun r => decide (r.addIdx = (j : Int))) = if j < adds.length then 1 else 0) := by
  obtain ⟨hdel, hadd, hsides⟩ := alignEditRows_char sim minScore dels adds
  have hdelcount : delSideCount (alignEditRows sim minScore dels adds) = dels.length := by
    rw [← length_delIdxs_eq, hdel, length_intRange]
    omega
  have haddcount : addSideCount (alignEditRows sim minScore dels adds) = adds.length := by
    rw [← length_addIdxs_eq, hadd, length_intRange]
    omega
  have hall : (alignEditRows sim minScore dels adds).countP
      (fun r => decide (0 ≤ r.delIdx) || decide (0 ≤ r.addIdx)) =
      (alignEditRows sim minScore dels adds).length := by
    rw [List.countP_eq_length]
    intro r hr
    rcases hsides r hr with h | h
    · simp [h]
    · simp [h]
  have hsum : delSideCount (alignEditRows sim minScore dels adds) +
      addSideCount (alignEditRows sim minScore dels adds) =
      pairedCount (alignEditRows sim minScore dels adds) +
      (alignEditRows sim minScore dels adds).length := by
    unfold delSideCount addSideCount pairedCount
    rw [← hall]
    exact countP_or_and _ _ _
  refine ⟨by omega, hdelcount, haddcount, ?_, ?_⟩
  · intro i
    rw [countP_del_eq i, hdel, countP_intRange]
    split_ifs <;> omega
  · intro j
    rw [countP_add_eq j, hadd, countP_intRange]
    split_ifs <;> omega

/-- C7: when `len(deletions) * len(insertions)` exceeds 10,000 the aligner
skips similarity scoring and pairs purely positionally: the result equals
`alignEditRowsByIndex` for every scoring function, whose row `k` pairs
`deletions[k]` with `insertions[k]` while both exist, the longer side's
remainder being emitted unpaired in order. -/
theorem alignEditRows_positional {S : Type} [LinearOrder S]
    (sim : List String → List String → S) (minScore : S) (dels adds : List String)
    (h : editPairComparisonLimit < dels.length * adds.length) :
    alignEditRows sim minScore dels adds = alignEditRowsByIndex dels adds ∧
    (alignEditRowsByIndex dels adds).length = max dels.length adds.length ∧
    ∀ k : Nat, k < max dels.length adds.length →
      (alignEditRowsByIndex dels adds)[k]? =
        some ⟨if k < dels.length then (k : Int) else -1,
              if k < adds.length then (k : Int) else -1⟩ := by
  have hn : ¬(dels.length = 0) := by
    intro h0
    rw [h0] at h
    simp [editPairComparisonLimit] at h
  have hm : ¬(adds.length = 0) := by
    intro h0
    rw [h0] at h
    simp [editPairComparisonLimit] at h
  refine ⟨?_, ?_, ?_⟩
  · unfold alignEditRows
    rw [if_neg hn, if_neg hm, if_pos h]
  · unfold alignEditRowsByIndex
    simp
  · intro k hk
    unfold alignEditRowsByIndex
    simp [List.getElem?_map, List.getElem?_range, hk]

/-- Evaluation of the C7 theorem at a concrete input above the guard
(101 x 101 = 10201 candidate pairs). -/
theorem alignEditRows_positional_witness :
    alignEditRows simNat 1 (List.replicate 101 "a") (List.replicate 101 "b") =
      alignEditRowsByIndex (List.replicate 101 "a") (List.replicate 101 "b") ∧
    (alignEditRowsByIndex (List.replicate 101 "a") (List.replicate 101 "b")).length =
      max (List.replicate 101 "a").length (List.replicate 101 "b").length := by
  have h := alignEditRows_positional simNat 1 (List.replicate 101 "a") (List.replicate 101 "b")
    (by norm_num [editPairComparisonLimit])
  exact ⟨h.1, h.2.1⟩

/-- Row kinds of the unified-diff parser (`Meta`, `Hunk`, `Del`, `Add`,
`Context`). -/
inductive Kind where
  | Meta : Kind
  | Hunk : Kind
  | Del : Kind
  | Add : Kind
  | Context : Kind
deriving DecidableEq, Repr

/-- One renderable row (`type Row struct`); the Go `*int` line-number fields
become `Option Int` (`none` = nil). -/
structure Row where
  OldNo : Option Int
  NewNo : Option Int
  Old : String
  New : String
  Kind : Kind
deriving DecidableEq, Repr

/-- Go `strings.ReplaceAll(input, "\r\n", "\n")` on a rune list: the
left-to-right, non-overlapping replacement of CRLF by LF. -/
def crlfToLf : List Char → List Char
  | [] => []
  | [c] => [c]
  | c1 :: c2 :: rest =>
    if c1 = '\r' ∧ c2 = '\n' then '\n' :: crlfToLf rest
    else c1 :: crlfToLf (c2 :: rest)

/-- Go `strings.Contains`. -/
def strContains (s sub : String) : Bool := decide (sub.data <:+: s.data)

/-- Go `strings.Split(s, "\n")` on a rune list; never returns an empty
list. -/
def splitNl : List Char → List (List Char)
  | [] => [[]]
  | c :: rest =>
    if c = '\n' then [] :: splitNl rest
    else
      match splitNl rest with
      | [] => [[c]]
      | seg :: segs => (c :: seg) :: segs

/-- Go `strings.TrimRight(s, "\n")` on a rune list. -/
def trimRightLf (s : List Char) : List Char :=
  (s.reverse.dropWhile (fun c => c = '\n')).reverse

/-- Go `strings.HasPrefix` on rune lists. -/
def isPrefixChars : List Char → List Char → Bool
  | [], _ => true
  | _ :: _, [] => false
  | p :: ps, c :: cs => if p = c then isPrefixChars ps cs else false

/-- Go `strings.HasPrefix` on strings. -/
def startsWithStr (p s : String) : Bool := isPrefixChars p.data s.data

/-- The meta-line prefixes recognized by `isMetaLine`, in source order. -/
def metaPrefixes : List String :=
  ["diff --git ", "index ", "--- ", "+++ ", "new file mode ", "deleted file mode ",
   "similarity index ", "rename from ", "rename to ", "old mode ", "new mode ",
   "Binary files ", "GIT binary patch"]

/-- `isMetaLine` of the source. -/
def isMetaLine (line : String) : Bool :=
  metaPrefixes.any (fun p => startsWithStr p line)

/-- `isHiddenFileHeaderMeta` of the source: the four file-header prefixes
whose preamble lines the parser suppresses. -/
def isHiddenFileHeaderMeta (line : String) : Bool :=
  startsWithStr "diff --git " line || startsWithStr "index " line ||
  startsWithStr "--- " line || startsWithStr "+++ " line

/-- A maximal nonempty ASCII-digit run and the rest of the input (a `\d+`
piece of the hunk-header regexp; the following required characters are
never digits, so maximal munch is exact). -/
def takeDigits1 (s : List Char) : Option (List Char × List Char) :=
  if s.takeWhile (fun c => c.isDigit) = [] then none
  else some (s.takeWhile (fun c => c.isDigit), s.dropWhile (fun c => c.isDigit))

/-- Literal matching: strip an expected prefix. -/
def stripLit : List Char → List Char → Option (List Char)
  | [], s => some s
  | _ :: _, [] => none
  | p :: ps, c :: cs => if p = c then stripLit ps cs else none

/-- The optional `(?:,\d+)?` group: a comma must be followed by at least one
digit (the character after the group is a space, so a comma can never be
matched by the surrounding context). -/
def afterOptCommaDigits (s : List Char) : Option (List Char) :=
  match s with
  | ',' :: rest =>
    match takeDigits1 rest with
    | none => none
    | some (_, rest2) => some rest2
  | _ => some s

/-- Structural model of the anchored regexp
`^@@ -(\d+)(?:,\d+)? \+(\d+)(?:,\d+)? @@`: the two captured digit runs when
a prefix of the line matches. -/
def matchHunkHeader (s : List Char) : Option (List Char × List Char) :=
  match stripLit "@@ -".data s with
  | none => none
  | some s1 =>
    match takeDigits1 s1 with
    | none => none
    | some (d1, s2) =>
      match afterOptCommaDigits s2 with
      | none => none
      | some s3 =>
        match stripLit " +".data s3 with
        | none => none
        | some s4 =>
          match takeDigits1 s4 with
          | none => none
          | some (d2, s5) =>
            match afterOptCommaDigits s5 with
            | none => none
            | some s6 =>
              match stripLit " @@".data s6 with
              | none => none
              | some _ => some (d1, d2)

/-- Numeric value of a digit run. -/
def digitsToNat (ds : List Char) : Nat :=
  ds.foldl (fun acc c => acc * 10 + (c.toNat - 48)) 0

/-- Go `strconv.Atoi` on a captured digit run, as consumed by
`parseHunkHeader`: values beyond MaxInt64 make `Atoi` fail and the source
then falls back to 1. -/
def atoiOr1 (ds : List Char) : Int :=
  if digitsToNat ds ≤ 9223372036854775807 then (digitsToNat ds : Int) else 1

/-- `parseHunkHeader` of the source: the two parsed start line numbers,
defaulting to (1, 1) when the regexp does not match. -/
def parseHunkHeader (line : String) : Int × Int :=
  match matchHunkHeader line.data with
  | none => (1, 1)
  | some (d1, d2) => (atoiOr1 d1, atoiOr1 d2)

/-- The parser's loop state: emitted rows, recorded hunk-header indices, the
two line counters, the `inHunk` flag and the pending edit buffers. -/
structure ParseState where
  rows : List Row
  hunkStarts : List Nat
  oldLine : Int
  newLine : Int
  inHunk : Bool
  dels : List String
  adds : List String
deriving DecidableEq, Repr

/-- The parser's initial state. -/
def initState : ParseState :=
  { rows := [], hunkStarts := [], oldLine := 0, newLine := 0,
    inHunk := false, dels := [], adds := [] }

/-- A `Meta` row carrying the line verbatim on both sides. -/
def metaRow (line : String) : Row :=
  { OldNo := none, NewNo := none, Old := line, New := line, Kind := Kind.Meta }

/-- Accumulator of the flush loop: rows so far plus the line counters. -/
structure FlushAcc where
  rows : List Row
  oldLine : Int
  newLine : Int

/-- Row construction of the flush loop for one aligned element (the loop
body of `flushEdits`): a side is materialized when its index is not the
`-1` sentinel, and the kind is reclassified exactly as the source does from
which line numbers are present. -/
def flushRowStep (dels adds : List String) (acc : FlushAcc) (p : blockRow) : FlushAcc :=
  { rows := acc.rows ++
      [{ OldNo := if 0 ≤ p.delIdx then some acc.oldLine else none,
         NewNo := if 0 ≤ p.addIdx then some acc.newLine else none,
         Old := if 0 ≤ p.delIdx then dels.getD p.delIdx.toNat "" else "",
         New := if 0 ≤ p.addIdx then adds.getD p.addIdx.toNat "" else "",
         Kind :=
           if 0 ≤ p.delIdx ∧ ¬0 ≤ p.addIdx then Kind.Del
           else if 0 ≤ p.addIdx ∧ ¬0 ≤ p.delIdx then Kind.Add
           else Kind.Context }],
    oldLine := if 0 ≤ p.delIdx then acc.oldLine + 1 else acc.oldLine,
    newLine := if 0 ≤ p.addIdx then acc.newLine + 1 else acc.newLine }

/-- Writing the flush results back into the parser state and clearing the
buffers. -/
def flushApply (st : ParseState) (acc : FlushAcc) : ParseState :=
  { st with
    rows := acc.rows
    oldLine := acc.oldLine
    newLine := acc.newLine
    dels := []
    adds := [] }

/-- `flushEdits` of the source as a state transformer: a no-op on empty
buffers, otherwise one row per element of the alignment. -/
def flushEdits {S : Type} [LinearOrder S] (sim : List String → List String → S)
    (minScore : S) (st : ParseState) : ParseState :=
  if st.dels.length = 0 ∧ st.adds.length = 0 then st
  else
    flushApply st ((alignEditRows sim minScore st.dels st.adds).foldl
      (flushRowStep st.dels st.adds) ⟨st.rows, st.oldLine, st.newLine⟩)

/-- One iteration of the parser's line loop (`for _, line := range lines`). -/
def parseStep {S : Type} [LinearOrder S] (sim : List String → List String → S)
    (minScore : S) (st : ParseState) (line : String) : ParseState :=
  if startsWithStr "@@ " line then
    { flushEdits sim minScore st with
      oldLine := (parseHunkHeader line).1
      newLine := (parseHunkHeader line).2
      inHunk := true
      rows := (flushEdits sim minScore st).rows ++
        [{ OldNo := none, NewNo := none, Old := line, New := line, Kind := Kind.Hunk }]
      hunkStarts := (flushEdits sim minScore st).hunkStarts ++
        [(flushEdits sim minScore st).rows.length] }
  else if st.inHunk = false ∧ isMetaLine line = true then
    if isHiddenFileHeaderMeta line then { flushEdits sim minScore st with inHunk := false }
    else { flushEdits sim minScore st with
      inHunk := false
      rows := (flushEdits sim minScore st).rows ++ [metaRow line] }
  else if st.inHunk = false then
    { st with rows := st.rows ++ [metaRow line] }
  else if line = "" then
    { flushEdits sim minScore st with
      rows := (flushEdits sim minScore st).rows ++
        [{ OldNo := none, NewNo := none, Old := "", New := "", Kind := Kind.Context }] }
  else if line.data.headD ' ' = '-' then
    { st with dels := st.dels ++ [String.mk line.data.tail] }
  else if line.data.headD ' ' = '+' then
    { st with adds := st.adds ++ [String.mk line.data.tail] }
  else if line.data.headD ' ' = ' ' then
    { flushEdits sim minScore st with
      rows := (flushEdits sim minScore st).rows ++
        [{ OldNo := some (flushEdits sim minScore st).oldLine,
           NewNo := some (flushEdits sim minScore st).newLine,
           Old := String.mk line.data.tail, New := String.mk line.data.tail,
           Kind := Kind.Context }]
      oldLine := (flushEdits sim minScore st).oldLine + 1
      newLine := (flushEdits sim minScore st).newLine + 1 }
  else if line.data.headD ' ' = '\\' then
    { flushEdits sim minScore st with
      rows := (flushEdits sim minScore st).rows ++ [metaRow line] }
  else
    { flushEdits sim minScore st with
      rows := (flushEdits sim minScore st).rows ++ [metaRow line] }

/-- The line loop followed by the final flush. -/
def parseLines {S : Type} [LinearOrder S] (sim : List String → List String → S)
    (minScore : S) (lines : List String) : ParseState :=
  flushEdits sim minScore (lines.foldl (parseStep sim minScore) initState)

/-- The fixed binary-change placeholder message. -/
def binaryMsg : String := "(binary file changed)"

/-- `ParseUnified` of the source: CRLF normalization, the all-whitespace
early return, the binary-file short-circuit, then the line loop. -/
def ParseUnified {S : Type} [LinearOrder S] (sim : List String → List String → S)
    (minScore : S) (input : String) : List Row × List Nat :=
  if trimSpace (crlfToLf input.data) = [] then ([], [])
  else if strContains (String.mk (crlfToLf input.data)) "Binary files" &&
      strContains (String.mk (crlfToLf input.data)) " differ" then
    ([{ OldNo := none, NewNo := none, Old := binaryMsg, New := binaryMsg,
        Kind := Kind.Meta }], [])
  else
    ((parseLines sim minScore
        ((splitNl (trimRightLf (crlfToLf input.data))).map String.mk)).rows,
     (parseLines sim minScore
        ((splitNl (trimRightLf (crlfToLf input.data))).map String.mk)).hunkStarts)

theorem flushEdits_inHunk {S : Type} [LinearOrder S] (sim : List String → List String → S)
    (minScore : S) (st : ParseState) : (flushEdits sim minScore st).inHunk = st.inHunk := by
  unfold flushEdits flushApply
  by_cases h : st.dels.length = 0 ∧ st.adds.length = 0
  · rw [if_pos h]
  · rw [if_neg h]

/-- C1: `ParseUnified` is a total function: it returns a row sequence and a
hunk-position list for every input string (it is a plain Lean function, so
the first conjunct is immediate), and every line matching no recognized
construct falls through to the emit-as-Meta branch: outside a hunk any
non-meta, non-hunk-header line is emitted verbatim as a `Meta` row, and
inside a hunk any nonempty line starting with none of `-`, `+`, space,
backslash (and not a hunk header) flushes the pending buffer and is emitted
verbatim as a `Meta` row. -/
theorem parseUnified_total_meta_fallthrough {S : Type} [LinearOrder S]
    (sim : List String → List String → S) (minScore : S) :
    (∀ input : String, ∃ rows hunks, ParseUnified sim minScore input = (rows, hunks)) ∧
    (∀ (st : ParseState) (line : String), startsWithStr "@@ " line = false →
      (st.inHunk = false → isMetaLine line = false →
        parseStep sim minScore st line = { st with rows := st.rows ++ [metaRow line] }) ∧
      (st.inHunk = true → line ≠ "" →
        line.data.headD ' ' ≠ '-' → line.data.headD ' ' ≠ '+' →
        line.data.headD ' ' ≠ ' ' → line.data.headD ' ' ≠ '\\' →
        parseStep sim minScore st line =
          { flushEdits sim minScore st with
            rows := (flushEdits sim minScore st).rows ++ [metaRow line] })) := by
  constructor
  · intro input
    exact ⟨(ParseUnified sim minScore input).1, (ParseUnified sim minScore input).2, rfl⟩
  · intro st line hat
    constructor
    · intro hin hmeta
      unfold parseStep
      rw [if_neg (by simp [hat]), if_neg (by simp [hmeta]), if_pos hin]
    · intro hin hne hc1 hc2 hc3 hc4
      unfold parseStep
      rw [if_neg (by simp [hat]), if_neg (by simp [hin]), if_neg (by simp [hin]),
        if_neg hne, if_neg hc1, if_neg hc2, if_neg hc3, if_neg hc4]

/-- Evaluation of the C1 theorem: the fallthrough equations at a concrete
preamble state and a concrete in-hunk state. -/
theorem parseUnified_total_meta_fallthrough_witness :
    parseStep simNat 1 initState "hello world" =
      { initState with rows := initState.rows ++ [metaRow "hello world"] } ∧
    parseStep simNat 1 { initState with inHunk := true } "xyz" =
      { flushEdits simNat 1 { initState with inHunk := true } with
        rows := (flushEdits simNat 1 { initState with inHunk := true }).rows ++
          [metaRow "xyz"] } := by
  constructor
  · exact ((parseUnified_total_meta_fallthrough simNat 1).2 initState "hello world"
      (by decide)).1 (by decide) (by decide)
  · exact ((parseUnified_total_meta_fallthrough simNat 1).2 { initState with inHunk := true }
      "xyz" (by decide)).2 (by decide) (by decide) (by decide) (by decide) (by decide)
      (by decide)

/-- The kind/line-number invariant of a row. -/
def rowOK (r : Row) : Prop :=
  (r.Kind = Kind.Del → r.OldNo.isSome = true ∧ r.NewNo = none) ∧
  (r.Kind = Kind.Add → r.NewNo.isSome = true ∧ r.OldNo = none) ∧
  (r.Kind = Kind.Context →
    (r.OldNo.isSome = true ∧ r.NewNo.isSome = true) ∨ (r.OldNo = none ∧ r.NewNo = none))

theorem flushRowStep_rowOK (dels adds : List String) (acc : FlushAcc) (p : blockRow) :
    ∀ r ∈ (flushRowStep dels adds acc p).rows, r ∈ acc.rows ∨ rowOK r := by
  intro r hr
  unfold flushRowStep at hr
  rcases List.mem_append.mp hr with hr | hr
  · exact Or.inl hr
  · right
    have hre : r = _ := List.mem_singleton.mp hr
    subst hre
    by_cases hd : 0 ≤ p.delIdx <;> by_cases ha : 0 ≤ p.addIdx <;>
      simp [rowOK, hd, ha]

theorem flush_foldl_rowOK (dels adds : List String) :
    ∀ (pairs : List blockRow) (acc : FlushAcc), (∀ r ∈ acc.rows, rowOK r) →
      ∀ r ∈ (pairs.foldl (flushRowStep dels adds) acc).rows, rowOK r := by
  intro pairs
  induction pairs with
  | nil => intro acc hacc; exact hacc
  | cons p ps ih =>
    intro acc hacc
    apply ih
    intro r hr
    rcases flushRowStep_rowOK dels adds acc p r hr with hr | hr
    · exact hacc r hr
    · exact hr

theorem flushEdits_rowOK {S : Type} [LinearOrder S] (sim : List String → List String → S)
    (minScore : S) (st : ParseState) (hst : ∀ r ∈ st.rows, rowOK r) :
    ∀ r ∈ (flushEdits sim minScore st).rows, rowOK r := by
  unfold flushEdits
  by_cases h : st.dels.length = 0 ∧ st.adds.length = 0
  · rw [if_pos h]; exact hst
  · rw [if_neg h]
    unfold flushApply
    exact flush_foldl_rowOK st.dels st.adds _ ⟨st.rows, st.oldLine, st.newLine⟩ hst

theorem parseStep_rowOK {S : Type} [LinearOrder S] (sim : List String → List String → S)
    (minScore : S) (st : ParseState) (line : String) (hst : ∀ r ∈ st.rows, rowOK r) :
    ∀ r ∈ (parseStep sim minScore st line).rows, rowOK r := by
  have hflush := flushEdits_rowOK sim minScore st hst
  unfold parseStep
  split_ifs <;> intro r hr <;>
    first
    | (rcases List.mem_append.mp hr with hr | hr
       · first
         | exact hflush r hr
         | exact hst r hr
       · have hre : r = _ := List.mem_singleton.mp hr
         subst hre
         simp [rowOK, metaRow])
    | exact hflush r hr
    | exact hst r hr

theorem parse_foldl_rowOK {S : Type} [LinearOrder S] (sim : List String → List String → S)
    (minScore : S) :
    ∀ (lines : List String) (st : ParseState), (∀ r ∈ st.rows, rowOK r) →
      ∀ r ∈ (lines.foldl (parseStep sim minScore) st).rows, rowOK r := by
  intro lines
  induction lines with
  | nil => intro st hst; exact hst
  | cons l ls ih =>
    intro st hst
    exact ih (parseStep sim minScore st l) (parseStep_rowOK sim minScore st l hst)

/-- C2: every row produced by `ParseUnified` satisfies the kind/line-number
invariant: a `Del` row has an old line number and no new one, an `Add` row
has a new line number and no old one, and a `Context` row has either both
or neither. -/
theorem parseUnified_row_invariant {S : Type} [LinearOrder S]
    (sim : List String → List String → S) (minScore : S) (input : String) :
    ∀ r ∈ (ParseUnified sim minScore input).1, rowOK r := by
  unfold ParseUnified
  split_ifs with h1 h2
  · intro r hr
    simp at hr
  · intro r hr
    have hre : r = _ := List.mem_singleton.mp hr
    subst hre
    simp [rowOK]
  · unfold parseLines
    exact flushEdits_rowOK sim minScore _
      (parse_foldl_rowOK sim minScore _ initState (by intro r hr; simp [initState] at hr))

/-- Evaluation of the C2 theorem: the unmatched middle deletion of the
three-line replacement block satisfies the invariant. -/
theorem parseUnified_row_invariant_witness :
    rowOK { OldNo := some 2, NewNo := none, Old := "B", New := "", Kind := Kind.Del } :=
  parseUnified_row_invariant simNat 1 "@@ -1,3 +1,2 @@\n-A\n-B\n-C\n+A\n+C\n"
    { OldNo := some 2, NewNo := none, Old := "B", New := "", Kind := Kind.Del }
    (by decide)

/-- C3 counterexample: a preamble `diff --git ` line is a recognized meta
line, yet `ParseUnified` returns no row at all for an input consisting of
exactly that line — the preamble line is dropped, not emitted as `Meta`. -/
theorem preamble_hidden_counterexample :
    isMetaLine "diff --git a/x b/x" = true ∧
    ParseUnified simNat 1 "diff --git a/x b/x" = ([], []) := by
  constructor
  · decide
  · decide

/-- C3 (amended): while in the preamble, a line matching one of the hidden
file-header prefixes (`diff --git `, `index `, `--- `, `+++ `) is
suppressed; every other line matching a known meta prefix, and every
non-meta line, is emitted verbatim as a `Meta` row. -/
theorem preamble_meta_amended {S : Type} [LinearOrder S]
    (sim : List String → List String → S) (minScore : S) (st : ParseState) (line : String)
    (hat : startsWithStr "@@ " line = false) (hin : st.inHunk = false) :
    (isMetaLine line = true → isHiddenFileHeaderMeta line = true →
      parseStep sim minScore st line = { flushEdits sim minScore st with inHunk := false }) ∧
    (isMetaLine line = true → isHiddenFileHeaderMeta line = false →
      parseStep sim minScore st line =
        { flushEdits sim minScore st with
          inHunk := false
          rows := (flushEdits sim minScore st).rows ++ [metaRow line] }) ∧
    (isMetaLine line = false →
      parseStep sim minScore st line = { st with rows := st.rows ++ [metaRow line] }) := by
  refine ⟨?_, ?_, ?_⟩
  · intro hmeta hhid
    unfold parseStep
    rw [if_neg (by simp [hat]), if_pos ⟨hin, hmeta⟩, if_pos hhid]
  · intro hmeta hhid
    unfold parseStep
    rw [if_neg (by simp [hat]), if_pos ⟨hin, hmeta⟩, if_neg (by simp [hhid])]
  · intro hmeta
    unfold parseStep
    rw [if_neg (by simp [hat]), if_neg (by simp [hmeta]), if_pos hin]

/-- Evaluation of the amended C3 theorem: a hidden header is dropped, a
mode-change meta line is emitted, a plain line is emitted. -/
theorem preamble_meta_amended_witness :
    parseStep simNat 1 initState "diff --git a/x b/x" =
      { flushEdits simNat 1 initState with inHunk := false } ∧
    parseStep simNat 1 initState "new file mode 100644" =
      { flushEdits simNat 1 initState with
        inHunk := false
        rows := (flushEdits simNat 1 initState).rows ++ [metaRow "new file mode 100644"] } ∧
    parseStep simNat 1 initState "hello" =
      { initState with rows := initState.rows ++ [metaRow "hello"] } := by
  refine ⟨?_, ?_, ?_⟩
  · exact (preamble_meta_amended simNat 1 initState "diff --git a/x b/x" (by decide)
      (by decide)).1 (by decide) (by decide)
  · exact (preamble_meta_amended simNat 1 initState "new file mode 100644" (by decide)
      (by decide)).2.1 (by decide) (by decide)
  · exact (preamble_meta_amended simNat 1 initState "hello" (by decide)
      (by decide)).2.2 (by decide)

theorem parseStep_inHunk_fallback {S : Type} [LinearOrder S]
    (sim : List String → List String → S) (minScore : S) (st : ParseState) (line : String)
    (hat : startsWithStr "@@ " line = false) (hin : st.inHunk = true) (hne : line ≠ "")
    (hc1 : line.data.headD ' ' ≠ '-') (hc2 : line.data.headD ' ' ≠ '+')
    (hc3 : line.data.headD ' ' ≠ ' ') (hc4 : line.data.headD ' ' ≠ '\\') :
    parseStep sim minScore st line =
      { flushEdits sim minScore st with
        rows := (flushEdits sim minScore st).rows ++ [metaRow line] } := by
  unfold parseStep
  rw [if_neg (by simp [hat]), if_neg (by simp [hin]), if_neg (by simp [hin]),
    if_neg hne, if_neg hc1, if_neg hc2, if_neg hc3, if_neg hc4]

theorem startsWith_head2 (p line : String) (h : startsWithStr p line = true)
    (hne : p.data ≠ []) : ∃ rest, line.data = p.data.headD ' ' :: rest := by
  unfold startsWithStr at h
  cases hpd : p.data with
  | nil => exact absurd hpd hne
  | cons c cs =>
    rw [hpd] at h
    cases hld : line.data with
    | nil =>
      rw [hld] at h
      exact absurd h (by simp [isPrefixChars])
    | cons x xs =>
      rw [hld] at h
      by_cases hcx : c = x
      · refine ⟨xs, ?_⟩
        simp [hcx]
      · rw [show isPrefixChars (c :: cs) (x :: xs) = false from by
          simp [isPrefixChars, hcx]] at h
        exact absurd h (by decide)

theorem isMetaLine_first_char (line : String) (h : isMetaLine line = true) :
    ∃ c rest, line.data = c :: rest ∧
      c ∈ ['d', 'i', '-', '+', 'n', 's', 'r', 'o', 'B', 'G'] := by
  unfold isMetaLine at h
  rcases List.any_eq_true.mp h with ⟨p, hp, hpre⟩
  simp only [metaPrefixes, List.mem_cons, List.not_mem_nil, or_false] at hp
  rcases hp with hp | hp | hp | hp | hp | hp | hp | hp | hp | hp | hp | hp | hp <;>
    subst hp <;>
    · obtain ⟨rest, hr⟩ := startsWith_head2 _ line hpre (by decide)
      exact ⟨_, rest, hr, by decide⟩

theorem parseStep_buffers_del {S : Type} [LinearOrder S]
    (sim : List String → List String → S) (minScore : S) (st : ParseState) (line : String)
    (hin : st.inHunk = true) (hc : line.data.headD ' ' = '-') :
    parseStep sim minScore st line =
      { st with dels := st.dels ++ [String.mk line.data.tail] } := by
  have hne : line ≠ "" := by
    intro h0
    rw [h0] at hc
    exact absurd hc (by decide)
  have hat : startsWithStr "@@ " line = false := by
    cases hld : line.data with
    | nil =>
      rw [hld] at hc
      exact absurd hc (by decide)
    | cons x xs =>
      have hx : x = '-' := by
        rw [hld] at hc
        simpa using hc
      subst hx
      unfold startsWithStr
      rw [hld, show ("@@ " : String).data = ['@', '@', ' '] from by decide]
      simp [isPrefixChars]
  unfold parseStep
  rw [if_neg (by simp [hat]), if_neg (by simp [hin]), if_neg (by simp [hin]),
    if_neg hne, if_pos hc]

theorem parseStep_buffers_add {S : Type} [LinearOrder S]
    (sim : List String → List String → S) (minScore : S) (st : ParseState) (line : String)
    (hin : st.inHunk = true) (hc : line.data.headD ' ' = '+') :
    parseStep sim minScore st line =
      { st with adds := st.adds ++ [String.mk line.data.tail] } := by
  have hne : line ≠ "" := by
    intro h0
    rw [h0] at hc
    exact absurd hc (by decide)
  have hat : startsWithStr "@@ " line = false := by
    cases hld : line.data with
    | nil =>
      rw [hld] at hc
      exact absurd hc (by decide)
    | cons x xs =>
      have hx : x = '+' := by
        rw [hld] at hc
        simpa using hc
      subst hx
      unfold startsWithStr
      rw [hld, show ("@@ " : String).data = ['@', '@', ' '] from by decide]
      simp [isPrefixChars]
  have hc1 : line.data.headD ' ' ≠ '-' := by rw [hc]; decide
  unfold parseStep
  rw [if_neg (by simp [hat]), if_neg (by simp [hin]), if_neg (by simp [hin]),
    if_neg hne, if_neg hc1, if_pos hc]

theorem parseStep_inHunk_mono {S : Type} [LinearOrder S]
    (sim : List String → List String → S) (minScore : S) (st : ParseState) (line : String)
    (h : st.inHunk = true) : (parseStep sim minScore st line).inHunk = true := by
  unfold parseStep
  split_ifs <;>
    first
      | (have hcontra : st.inHunk = false ∧ isMetaLine line = true := by assumption
         rw [h] at hcontra
         exact absurd hcontra.1 (by decide))
      | rfl
      | exact h
      | (show (flushEdits sim minScore st).inHunk = true
         rw [flushEdits_inHunk]
         exact h)

/-- C10 counterexample: after a hunk header, the meta-prefixed line
`--- a/x` is buffered as a deletion (its remainder `-- a/x` becomes a `Del`
row at the final flush) instead of being emitted as a `Meta` row; the
output contains no `Meta` row. -/
theorem inHunk_meta_counterexample :
    isMetaLine "--- a/x" = true ∧
    ParseUnified simNat 1 "@@ -1 +1 @@\n--- a/x" =
      ([{ OldNo := none, NewNo := none, Old := "@@ -1 +1 @@", New := "@@ -1 +1 @@",
          Kind := Kind.Hunk },
        { OldNo := some 1, NewNo := none, Old := "-- a/x", New := "", Kind := Kind.Del }],
       [0]) := by
  constructor
  · decide
  · decide

/-- C10 (amended): the parser never leaves the `InHunk` state (per step and
along any line sequence); once in a hunk, every later line matching a
meta-line prefix and not beginning with `-` or `+` flushes the pending
buffer and is emitted verbatim as a `Meta` row, never suppressed, while
`-`/`+`-prefixed lines (including the `--- `/`+++ ` file markers) are
buffered as edit content. -/
theorem inHunk_no_return_amended {S : Type} [LinearOrder S]
    (sim : List String → List String → S) (minScore : S) :
    (∀ (st : ParseState) (line : String), st.inHunk = true →
      (parseStep sim minScore st line).inHunk = true) ∧
    (∀ (lines : List String) (st : ParseState), st.inHunk = true →
      (lines.foldl (parseStep sim minScore) st).inHunk = true) ∧
    (∀ (st : ParseState) (line : String), st.inHunk = true → isMetaLine line = true →
      line.data.headD ' ' ≠ '-' → line.data.headD ' ' ≠ '+' →
      parseStep sim minScore st line =
        { flushEdits sim minScore st with
          rows := (flushEdits sim minScore st).rows ++ [metaRow line] }) ∧
    (∀ (st : ParseState) (line : String), st.inHunk = true →
      line.data.headD ' ' = '-' →
      parseStep sim minScore st line =
        { st with dels := st.dels ++ [String.mk line.data.tail] }) ∧
    (∀ (st : ParseState) (line : String), st.inHunk = true →
      line.data.headD ' ' = '+' →
      parseStep sim minScore st line =
        { st with adds := st.adds ++ [String.mk line.data.tail] }) := by
  refine ⟨parseStep_inHunk_mono sim minScore, ?_, ?_, parseStep_buffers_del sim minScore,
    parseStep_buffers_add sim minScore⟩
  · intro lines
    induction lines with
    | nil => intro st h; exact h
    | cons l ls ih =>
      intro st h
      exact ih (parseStep sim minScore st l) (parseStep_inHunk_mono sim minScore st l h)
  · intro st line hin hmeta hc1 hc2
    obtain ⟨c, rest, hdata, hmem⟩ := isMetaLine_first_char line hmeta
    have hhead : line.data.headD ' ' = c := by rw [hdata]; rfl
    have hne : line ≠ "" := by
      intro h0
      have hnil : ("" : String).data = [] := rfl
      rw [h0, hnil] at hdata
      exact absurd hdata (by simp)
    have hcne1 : c ≠ '-' := by rw [← hhead]; exact hc1
    have hcne2 : c ≠ '+' := by rw [← hhead]; exact hc2
    have hcne3 : c ≠ ' ' ∧ c ≠ '\\' ∧ c ≠ '@' := by
      simp only [List.mem_cons, List.not_mem_nil, or_false] at hmem
      rcases hmem with rfl | rfl | rfl | rfl | rfl | rfl | rfl | rfl | rfl | rfl <;>
        first
          | exact absurd rfl hcne1
          | exact absurd rfl hcne2
          | exact ⟨by decide, by decide, by decide⟩
    have hat : startsWithStr "@@ " line = false := by
      unfold startsWithStr
      rw [hdata, show ("@@ " : String).data = ['@', '@', ' '] from by decide]
      simp [isPrefixChars, Ne.symm hcne3.2.2]
    exact parseStep_inHunk_fallback sim minScore st line hat hin hne hc1 hc2
      (by rw [hhead]; exact hcne3.1) (by rw [hhead]; exact hcne3.2.1)

/-- Evaluation of the amended C10 theorem: in a hunk a mode-change meta
line is flushed and emitted as Meta, and a `--- ` marker is buffered as a
deletion. -/
theorem inHunk_no_return_amended_witness :
    (parseStep simNat 1 { initState with inHunk := true } "new file mode 100644").inHunk
      = true ∧
    parseStep simNat 1 { initState with inHunk := true } "new file mode 100644" =
      { flushEdits simNat 1 { initState with inHunk := true } with
        rows := (flushEdits simNat 1 { initState with inHunk := true }).rows ++
          [metaRow "new file mode 100644"] } ∧
    parseStep simNat 1 { initState with inHunk := true } "--- a/x" =
      { { initState with inHunk := true } with
        dels := ({ initState with inHunk := true } : ParseState).dels ++
          [String.mk "--- a/x".data.tail] } := by
  refine ⟨?_, ?_, ?_⟩
  · exact (inHunk_no_return_amended simNat 1).1 { initState with inHunk := true }
      "new file mode 100644" (by decide)
  · exact (inHunk_no_return_amended simNat 1).2.2.1 { initState with inHunk := true }
      "new file mode 100644" (by decide) (by decide) (by decide) (by decide)
  · exact (inHunk_no_return_amended simNat 1).2.2.2.1 { initState with inHunk := true }
      "--- a/x" (by decide) (by decide)

theorem crlfToLf_append_no_cr : ∀ (x y : List Char), (∀ c ∈ x, c ≠ '\r') →
    crlfToLf (x ++ y) = x ++ crlfToLf y := by
  intro x
  induction x with
  | nil => intro y _; simp
  | cons a x2 ih =>
    intro y h
    have ha : a ≠ '\r' := h a (List.mem_cons_self a x2)
    cases hxy : x2 ++ y with
    | nil =>
      rcases List.append_eq_nil.mp hxy with ⟨hx2, hy⟩
      subst hx2
      subst hy
      simp [crlfToLf]
    | cons b t =>
      have hcond : ¬(a = '\r' ∧ b = '\n') := fun hc => ha hc.1
      calc crlfToLf (a :: x2 ++ y) = crlfToLf (a :: b :: t) := by rw [List.cons_append, hxy]
        _ = a :: crlfToLf (b :: t) := by simp [crlfToLf, hcond]
        _ = a :: crlfToLf (x2 ++ y) := by rw [← hxy]
        _ = a :: (x2 ++ crlfToLf y) := by
              rw [ih y (fun c hc => h c (List.mem_cons_of_mem a hc))]
        _ = (a :: x2) ++ crlfToLf y := rfl

theorem prefix_crlfToLf {sub w : List Char} (h : sub <+: w)
    (hc : ∀ c ∈ sub, c ≠ '\r') : sub <+: crlfToLf w := by
  rcases h with ⟨v, hv⟩
  rw [← hv, crlfToLf_append_no_cr sub v hc]
  exact ⟨crlfToLf v, rfl⟩

theorem infix_crlfToLf : ∀ (N : Nat) (s sub : List Char), s.length ≤ N →
    (∀ c ∈ sub, c ≠ '\r' ∧ c ≠ '\n') → sub <:+: s → sub <:+: crlfToLf s := by
  intro N
  induction N with
  | zero =>
    intro s sub hlen hc hinf
    have hs : s = [] := by
      cases s with
      | nil => rfl
      | cons a t => simp at hlen
    subst hs
    simpa [crlfToLf] using hinf
  | succ N ih =>
    intro s sub hlen hc hinf
    cases s with
    | nil => simpa [crlfToLf] using hinf
    | cons c1 srest =>
      cases srest with
      | nil => simpa [crlfToLf] using hinf
      | cons c2 rest =>
        by_cases hcr : c1 = '\r' ∧ c2 = '\n'
        · have hre : crlfToLf (c1 :: c2 :: rest) = '\n' :: crlfToLf rest := by
            simp [crlfToLf, hcr]
          rw [hre]
          rcases List.infix_cons_iff.mp hinf with hpre | hinf2
          · cases sub with
            | nil => exact List.nil_infix
            | cons x xs =>
              rcases List.cons_prefix_cons.mp hpre with ⟨hx, _⟩
              exact absurd (hx.trans hcr.1) (hc x (List.mem_cons_self x xs)).1
          · rcases List.infix_cons_iff.mp hinf2 with hpre | hinf3
            · cases sub with
              | nil => exact List.nil_infix
              | cons x xs =>
                rcases List.cons_prefix_cons.mp hpre with ⟨hx, _⟩
                exact absurd (hx.trans hcr.2) (hc x (List.mem_cons_self x xs)).2
            · exact List.infix_cons (ih rest sub (by simp at hlen ⊢; omega) hc hinf3)
        · have hre : crlfToLf (c1 :: c2 :: rest) = c1 :: crlfToLf (c2 :: rest) := by
            simp [crlfToLf, hcr]
          rw [hre]
          rcases List.infix_cons_iff.mp hinf with hpre | hinf2
          · cases sub with
            | nil => exact List.nil_infix
            | cons x xs =>
              rcases List.cons_prefix_cons.mp hpre with ⟨hx, hxs⟩
              have hxs2 : xs <+: crlfToLf (c2 :: rest) :=
                prefix_crlfToLf hxs (fun c hcm => (hc c (List.mem_cons_of_mem x hcm)).1)
              exact (List.cons_prefix_cons.mpr ⟨hx, hxs2⟩).isInfix
          · exact List.infix_cons (ih (c2 :: rest) sub (by simp at hlen ⊢; omega) hc hinf2)

theorem trimSpace_ne_nil {s : List Char} {c : Char} (hmem : c ∈ s)
    (hcs : unicodeIsSpace c = false) : ¬(trimSpace s = []) := by
  intro htrim
  unfold trimSpace at htrim
  have h1 : (s.dropWhile unicodeIsSpace).reverse.dropWhile unicodeIsSpace = [] := by
    simpa using htrim
  have h3 : ∀ x ∈ s.dropWhile unicodeIsSpace, unicodeIsSpace x = true := by
    intro x hx
    exact List.dropWhile_eq_nil_iff.mp h1 x (List.mem_reverse.mpr hx)
  have hsplit : s.takeWhile unicodeIsSpace ++ s.dropWhile unicodeIsSpace = s :=
    List.takeWhile_append_dropWhile unicodeIsSpace s
  have hmem2 : c ∈ s.takeWhile unicodeIsSpace ++ s.dropWhile unicodeIsSpace := by
    rw [hsplit]
    exact hmem
  have h5 : unicodeIsSpace c = true := by
    rcases List.mem_append.mp hmem2 with hm | hm
    · exact List.mem_takeWhile_imp hm
    · exact h3 c hm
  rw [hcs] at h5
  exact absurd h5 (by decide)

/-- C8: for every input string containing both the substring
`Binary files` and the substring ` differ`, `ParseUnified` returns exactly
one row, of kind `Meta`, whose old and new texts both equal the fixed
placeholder `(binary file changed)`, and an empty hunk-position list. -/
theorem parseUnified_binary {S : Type} [LinearOrder S]
    (sim : List String → List String → S) (minScore : S) (input : String)
    (h1 : strContains input "Binary files" = true)
    (h2 : strContains input " differ" = true) :
    ParseUnified sim minScore input =
      ([{ OldNo := none, NewNo := none, Old := binaryMsg, New := binaryMsg,
          Kind := Kind.Meta }], []) := by
  have hinf1 : ("Binary files" : String).data <:+: input.data := of_decide_eq_true h1
  have hinf2 : (" differ" : String).data <:+: input.data := of_decide_eq_true h2
  have hc1 : ∀ c ∈ ("Binary files" : String).data, c ≠ '\r' ∧ c ≠ '\n' := by decide
  have hc2 : ∀ c ∈ (" differ" : String).data, c ≠ '\r' ∧ c ≠ '\n' := by decide
  have hinf1c : ("Binary files" : String).data <:+: crlfToLf input.data :=
    infix_crlfToLf input.data.length input.data _ (le_refl _) hc1 hinf1
  have hinf2c : (" differ" : String).data <:+: crlfToLf input.data :=
    infix_crlfToLf input.data.length input.data _ (le_refl _) hc2 hinf2
  have hBmem : 'B' ∈ crlfToLf input.data := by
    rcases hinf1c with ⟨u, v, huv⟩
    have hBsub : 'B' ∈ ("Binary files" : String).data := by decide
    rw [← huv]
    exact List.mem_append.mpr (Or.inl (List.mem_append.mpr (Or.inr hBsub)))
  have htrim : ¬(trimSpace (crlfToLf input.data) = []) :=
    trimSpace_ne_nil hBmem (by decide)
  have hcond : (strContains (String.mk (crlfToLf input.data)) "Binary files" &&
      strContains (String.mk (crlfToLf input.data)) " differ") = true := by
    rw [Bool.and_eq_true]
    exact ⟨decide_eq_true hinf1c, decide_eq_true hinf2c⟩
  unfold ParseUnified
  rw [if_neg htrim, if_pos hcond]

/-- Evaluation of the C8 theorem at the concrete binary notice. -/
theorem parseUnified_binary_witness :
    ParseUnified simNat 1 "Binary files a/x and b/x differ" =
      ([{ OldNo := none, NewNo := none, Old := binaryMsg, New := binaryMsg,
          Kind := Kind.Meta }], []) :=
  parseUnified_binary simNat 1 "Binary files a/x and b/x differ" (by decide) (by decide)

end TDiff
